import Mathlib

/-!
# Verification of the libfyaml document layer (`fy-doc.c`)

Shallow embedding of the node/document data model and the operations of
`src/lib/fy-doc.c`: semantic node comparison (`fy_node_compare`), the default
mapping sort comparator (`fy_node_mapping_sort_cmp_default`), anchor
registration and lookup, alias/merge-key resolution (`fy_document_resolve`),
mapping construction (`fy_parse_document_load_mapping`), and the sequence /
mapping accessor and mutation API.

Modelling conventions:
* Scalar content is modelled by its decoded text, a list of byte values.
  `fy_token_get_text` materialises exactly this decoded string; the atom
  decoding machinery (`fy-atom.c`) is outside the embedded slice, so a token
  is represented by the decoded bytes it yields.
* C `NULL` node pointers become `Option Node`; a mapping pair is a pair of
  nullable key and value, `fy_node_pair`.
* `fy_node_compare` recurses through a sorted permutation of mapping pairs,
  which is not a structural descent, so it is written with an explicit fuel
  parameter (`compareF`); the wrapper `fy_node_compare` supplies `sizeOf`
  fuel, which lemma `compareF_congr` shows is adequate.  All definitions are
  plain computable structural recursions, so concrete runs reduce by `rfl`.
* The C code compares node pointers (`fyn1 == fyn2`) as a fast path before
  doing any work; pointer-equal arguments are structurally equal, and
  `compareF_refl` proves the remaining code already returns `true` on
  structurally equal arguments, so the fast path is semantics-preserving
  and the model omits it.
-/

set_option maxRecDepth 8000

namespace Fy

/-- Decoded byte strings (contents of `fy_token_get_text`). -/
abbrev Bytes := List Nat

/-- ASCII helper to write byte strings. -/
def bs (s : String) : Bytes := s.data.map Char.toNat

/-- Node styles, `enum fy_node_style` (`FYNS_*`). -/
inductive Style where
  | any | flow | block | plain | singleQuoted | doubleQuoted
  | literal | folded | aliasStyle
deriving DecidableEq, Repr

/-- `struct fy_node`: a scalar (one content token, modelled by its style and
decoded text), a sequence (ordered children, non-NULL in the C list), or a
mapping (ordered key/value pairs, either side possibly NULL). -/
inductive Node where
  | scalar (style : Style) (text : Bytes)
  | sequence (style : Style) (items : List Node)
  | mapping (style : Style) (pairs : List (Option Node × Option Node))

/-- `struct fy_node_pair`: nullable key and value. -/
abbrev NodePair := Option Node × Option Node

mutual

/-- Executable node size, the fuel measure for `fy_node_compare` (the
auto-generated `SizeOf` of a nested inductive has no executable code). -/
def sizeN : Node → Nat
  | .scalar _ _ => 1
  | .sequence _ l => 1 + sizeNL l
  | .mapping _ p => 1 + sizeNP p
termination_by structural n => n

def sizeNL : List Node → Nat
  | [] => 0
  | x :: xs => 1 + sizeN x + sizeNL xs
termination_by structural l => l

def sizeNP : List (Option Node × Option Node) → Nat
  | [] => 0
  | (k, v) :: ps => 1 + sizeNO k + sizeNO v + sizeNP ps
termination_by structural p => p

def sizeNO : Option Node → Nat
  | none => 0
  | some x => 1 + sizeN x
termination_by structural o => o

end

/-! ## The default mapping sort comparator, `fy_node_mapping_sort_cmp_default`

A pair is carried together with its position in the parent mapping, which is
what `fy_node_mapping_get_pair_index` recovers from the pair pointer. -/

/-- `strncmp(a, b, n)`: compare at most `n` bytes, stopping at the first
difference or at a NUL byte; bytes compare as unsigned char. -/
def strncmpM : Bytes → Bytes → Nat → Int
  | _, _, 0 => 0
  | [], _, _ + 1 => 0
  | _, [], _ + 1 => 0
  | a :: as, b :: bb, n + 1 =>
    if a ≠ b then (a : Int) - (b : Int)
    else if a = 0 then 0
    else strncmpM as bb n

/-- The `str_a`/`len_a` computation of the comparator: a NULL key acts as the
empty string, a scalar key yields its decoded text, any other key yields the
NULL string marker. -/
def keyStr : Option Node → Option Bytes
  | none => some []
  | some (.scalar _ t) => some t
  | some _ => none

/-- Key is a mapping (`fynp->key->type == FYNT_MAPPING`). -/
def keyIsMapping : Option Node → Bool
  | some (.mapping _ _) => true
  | _ => false

/-- Key is a sequence. -/
def keyIsSequence : Option Node → Bool
  | some (.sequence _ _) => true
  | _ => false

/-- `fy_node_mapping_sort_cmp_default`: scalar keys (and NULL keys, as empty
strings) compare by `strncmp` over the shorter length; a non-scalar key sorts
before a scalar key; two non-scalar keys of different type put the mapping
first; two non-scalar keys of the same type compare by pair index. -/
def fy_node_mapping_sort_cmp_default (a b : NodePair × Nat) : Int :=
  match keyStr a.1.1, keyStr b.1.1 with
  | some sa, some sb => strncmpM sa sb (min sa.length sb.length)
  | none, some _ => -1
  | some _, none => 1
  | none, none =>
    if keyIsMapping a.1.1 ≠ keyIsMapping b.1.1 then
      (if keyIsMapping a.1.1 then -1 else 1)
    else if a.2 > b.2 then 1 else if a.2 < b.2 then -1 else 0

/-- Attach the pair indices of a mapping's pair list (what
`fy_node_mapping_get_pair_index` reads back from a pair pointer). -/
def withIdx : List NodePair → Nat → List (NodePair × Nat)
  | [], _ => []
  | p :: ps, i => (p, i) :: withIdx ps (i + 1)

/-- The sort order used by `fy_node_mapping_perform_sort` via `qsort_r`:
the comparator is non-negative.  `qsort_r` leaves the order of tied entries
unspecified; the model fixes the stable order (Mathlib's insertion sort),
which is one qsort outcome. -/
def sortLE (a b : NodePair × Nat) : Prop :=
  fy_node_mapping_sort_cmp_default a b ≤ 0

instance : DecidableRel sortLE := fun a b => by
  unfold sortLE; infer_instance

/-- `fy_node_mapping_perform_sort` with the default comparator: the pair
array sorted by `fy_node_mapping_sort_cmp_default`. -/
def fy_node_mapping_perform_sort (l : List NodePair) : List NodePair :=
  ((withIdx l 0).insertionSort sortLE).map Prod.fst

/-! ### C5: the claimed order and the order the comparator implements -/

/-- Key rank in the claimed order: mapping keys first, then sequence keys,
then scalar keys (a NULL key acts as an empty scalar). -/
def claimKeyRank : Option Node → Nat
  | some (.mapping _ _) => 0
  | some (.sequence _ _) => 1
  | _ => 2

/-- Decoded text of a scalar key; empty for a NULL key. -/
def scalarKeyText : Option Node → Bytes
  | some (.scalar _ t) => t
  | _ => []

/-- True lexicographic byte order (a strict prefix sorts first). -/
def lexCmpBytes : Bytes → Bytes → Int
  | [], [] => 0
  | [], _ :: _ => -1
  | _ :: _, [] => 1
  | a :: as, b :: bb => if a < b then -1 else if b < a then 1 else lexCmpBytes as bb

/-- `idx_a > idx_b ? 1 : (idx_a < idx_b ? -1 : 0)`. -/
def idxCmpInt (i j : Nat) : Int := if i > j then 1 else if i < j then -1 else 0

/-- The comparator the C5 sentence describes: mapping keys first, then
sequence keys, then scalar keys lexicographically by decoded bytes, all ties
broken by the pair's original insertion index. -/
def claim_sort_cmp (a b : NodePair × Nat) : Int :=
  if claimKeyRank a.1.1 < claimKeyRank b.1.1 then -1
  else if claimKeyRank b.1.1 < claimKeyRank a.1.1 then 1
  else
    let c : Int :=
      if claimKeyRank a.1.1 = 2 then
        lexCmpBytes (scalarKeyText a.1.1) (scalarKeyText b.1.1)
      else 0
    if c ≠ 0 then c else idxCmpInt a.2 b.2

/-- The order the comparator actually implements (the corrected reading of
C5): same ranks, but scalar keys compare by `strncmp` over the shorter of
the two lengths — so a scalar key that is a prefix of another (or agrees
with it up to a NUL byte) ties — and the index tie-break applies only
between two sequence keys or two mapping keys, never between scalars. -/
def amended_sort_cmp (a b : NodePair × Nat) : Int :=
  if claimKeyRank a.1.1 < claimKeyRank b.1.1 then -1
  else if claimKeyRank b.1.1 < claimKeyRank a.1.1 then 1
  else if claimKeyRank a.1.1 = 2 then
    strncmpM (scalarKeyText a.1.1) (scalarKeyText b.1.1)
      (min (scalarKeyText a.1.1).length (scalarKeyText b.1.1).length)
  else idxCmpInt a.2 b.2

/-! ## `fy_node_compare` -/

/-- The `null1`/`null2` test of `fy_node_compare`: NULL node, or scalar whose
decoded text is empty (`fy_token_get_text_length(...) == 0`). -/
def isNullNode : Option Node → Bool
  | none => true
  | some (.scalar _ t) => t.isEmpty
  | some _ => false

/-- `fy_node_compare`, fuelled (the mapping branch recurses through a sorted
permutation of the pairs, which is not a structural descent).  One fuel unit
is spent per nesting level; `fy_node_compare` below supplies adequate fuel.
Branches in source order: both-null → true; one null → false; kind mismatch
→ false; sequences element-wise and same length; mappings same item count
and pairwise equal keys and values after sorting both pair arrays with the
default comparator; scalars by decoded byte equality (`memcmp`). -/
def compareF : Nat → Option Node → Option Node → Bool
  | 0, _, _ => false
  | f + 1, n1, n2 =>
    if isNullNode n1 && isNullNode n2 then true
    else if isNullNode n1 || isNullNode n2 then false
    else
      match n1, n2 with
      | some (.sequence _ l1), some (.sequence _ l2) =>
        l1.length == l2.length &&
          (l1.zip l2).all fun q => compareF f (some q.1) (some q.2)
      | some (.mapping _ p1), some (.mapping _ p2) =>
        p1.length == p2.length &&
          ((fy_node_mapping_perform_sort p1).zip (fy_node_mapping_perform_sort p2)).all
            fun q => compareF f q.1.1 q.2.1 && compareF f q.1.2 q.2.2
      | some (.scalar _ t1), some (.scalar _ t2) => t1 == t2
      | _, _ => false

/-- `fy_node_compare(fyn1, fyn2)`. -/
def fy_node_compare (n1 n2 : Option Node) : Bool :=
  compareF (sizeNO n1 + sizeNO n2 + 1) n1 n2

/-- C1 spec side, following the claim's words: two nodes are equal iff
(a) both are null or empty scalars, or (b) both have the same kind and:
scalars have byte-equal decoded text, sequences have pairwise-equal elements
in order, and mappings have equal item counts and, after sorting both by the
default key comparator, pairwise-equal keys and values.  One fuel unit per
nesting level, as in `compareF`. -/
def specEqF : Nat → Option Node → Option Node → Bool
  | 0, _, _ => false
  | f + 1, a, b =>
    (isNullNode a && isNullNode b) ||
    (match a, b with
     | some (.scalar _ t1), some (.scalar _ t2) => t1 == t2
     | some (.sequence _ l1), some (.sequence _ l2) =>
       l1.length == l2.length && (l1.zip l2).all fun q => specEqF f (some q.1) (some q.2)
     | some (.mapping _ p1), some (.mapping _ p2) =>
       p1.length == p2.length &&
         ((fy_node_mapping_perform_sort p1).zip (fy_node_mapping_perform_sort p2)).all
           fun q => specEqF f q.1.1 q.2.1 && specEqF f q.1.2 q.2.2
     | _, _ => false)

/-- C1 spec side at the same (adequate) fuel as `fy_node_compare`. -/
def specNodeEq (n1 n2 : Option Node) : Bool :=
  specEqF (sizeNO n1 + sizeNO n2 + 1) n1 n2

/-! ## Mapping lookup, duplicate check, mutation API -/

/-- `fy_node_mapping_lookup_pair`: the first pair of the mapping whose key
compares semantically equal to the probe key. -/
def fy_node_mapping_lookup_pair (pairs : List NodePair) (key : Option Node) : Option NodePair :=
  pairs.find? fun q => fy_node_compare q.1 key

/-- `fy_node_mapping_key_is_duplicate`. -/
def keyIsDuplicate (pairs : List NodePair) (key : Option Node) : Bool :=
  (fy_node_mapping_lookup_pair pairs key).isSome

/-- `fy_node_mapping_remove_by_key`: find the first pair with a semantically
equal key, unlink it, and return its value (the C code also clears the value's
parent pointer and frees the probe key, bookkeeping outside this model);
without a match, return NULL and leave the mapping untouched. -/
def fy_node_mapping_remove_by_key (n : Node) (key : Option Node) : Option Node × Node :=
  match n with
  | .mapping st pairs =>
    match pairs.findIdx? (fun q => fy_node_compare q.1 key) with
    | some i => ((pairs.get? i).bind Prod.snd, .mapping st (pairs.eraseIdx i))
    | none => (none, .mapping st pairs)
  | other => (none, other)

/-- C10 spec side, following the claim's words: remove the first pair whose
key compares semantically equal and hand back its value, else report no
match. -/
def specRemoveGo (key : Option Node) : List NodePair → Option (Option Node × List NodePair)
  | [] => none
  | p :: rest =>
    if fy_node_compare p.1 key then some (p.2, rest)
    else
      match specRemoveGo key rest with
      | some (v, rest') => some (v, p :: rest')
      | none => none

/-- C10 spec side, packaged like the C return convention. -/
def specRemoveByKey (st : Style) (pairs : List NodePair) (key : Option Node) :
    Option Node × Node :=
  match specRemoveGo key pairs with
  | some (v, rest) => (v, .mapping st rest)
  | none => (none, .mapping st pairs)

/-- `fy_node_mapping_pair_insert_prepare`: refuse a non-mapping target and a
key that duplicates an existing key, else build the pair (parent-pointer
bookkeeping is outside the model). -/
def fy_node_mapping_pair_insert_prepare (n : Node) (key value : Option Node) :
    Option NodePair :=
  match n with
  | .mapping _ pairs =>
    if keyIsDuplicate pairs key then none else some (key, value)
  | _ => none

/-- `fy_node_mapping_append`. -/
def fy_node_mapping_append (n : Node) (key value : Option Node) : Option Node :=
  match n, fy_node_mapping_pair_insert_prepare n key value with
  | .mapping st pairs, some p => some (.mapping st (pairs ++ [p]))
  | _, _ => none

/-- `fy_node_mapping_prepend`. -/
def fy_node_mapping_prepend (n : Node) (key value : Option Node) : Option Node :=
  match n, fy_node_mapping_pair_insert_prepare n key value with
  | .mapping st pairs, some p => some (.mapping st (p :: pairs))
  | _, _ => none

/-! ## Document build: `fy_parse_document_load_mapping`

The builder pulls one key node and one value node per pair from the event
stream; the model starts from the loaded key/value pairs.  Before a pair is
linked in, its key must not duplicate a key already in the mapping, else the
build fails with a "duplicate key" diagnostic at the offending key's marks
(the model's error value is the offending key). -/

def loadMappingGo (acc : List NodePair) : List NodePair → Except (Option Node) (List NodePair)
  | [] => .ok acc
  | (k, v) :: rest =>
    if keyIsDuplicate acc k then .error k
    else loadMappingGo (acc ++ [(k, v)]) rest

/-- `fy_parse_document_load_mapping`, reduced to its pair loop. -/
def fy_parse_document_load_mapping (st : Style) (items : List NodePair) :
    Except (Option Node) Node :=
  (loadMappingGo [] items).map (Node.mapping st)

/-- C4 spec side: does the key of pair `i` of `items` duplicate a key of the
mapping built from `acc` followed by the pairs before position `i`? -/
def dupAt (acc : List NodePair) (items : List NodePair) (i : Nat) : Bool :=
  match items.get? i with
  | some p => keyIsDuplicate (acc ++ items.take i) p.1
  | none => false

/-- C4 spec side: index of the first pair whose key duplicates an earlier key
of the same mapping. -/
def firstDupIdx (items : List NodePair) : Option Nat :=
  (List.range items.length).find? fun i => dupAt [] items i

/-! ## Alias and merge-key resolution (`fy_document_resolve`)

The anchor environment is the document's anchor list keyed by anchor text,
as `fy_document_lookup_anchor_by_token` reads it.  The C list points at live
in-tree nodes; the model captures each target as a tree, which coincides
with the live node wherever the target has not been rewritten between
registration and the lookup — true in every concrete run below, while the
general theorems quantify over the environment. -/

abbrev Env := List (Bytes × Node)

/-- Anchor lookup by text (`fy_document_lookup_anchor_by_token`). -/
def lookupAnchorEnv (env : Env) (name : Bytes) : Option Node :=
  (env.find? fun e => e.1 == name).map Prod.snd

/-- `fy_node_pair_is_merge_key`: the key is a plain-style scalar whose atom
reads `<<`.  Modelled from the spec for the atom test: `fy_plain_atom_streq`
(not under `src/`) compares raw atom bytes, and for a plain scalar those are
its decoded text — the spec reads "a pair is a merge directive iff its key
is a plain scalar equal to `<<`". -/
def fy_node_pair_is_merge_key (p : NodePair) : Bool :=
  match p.1 with
  | some (.scalar .plain t) => t == bs "<<"
  | _ => false

/-- A plain scalar reading `<<` (what a key must be to form a merge pair). -/
def plainMergeScalar : Node → Bool
  | .scalar .plain t => t == bs "<<"
  | _ => false

/-- `fy_alias_get_merge_mapping`: the node must be an alias (scalar of style
`FYNS_ALIAS`), its anchor must exist, and the anchored node must be a
mapping. -/
def fy_alias_get_merge_mapping (env : Env) (v : Option Node) : Option Node :=
  match v with
  | some (.scalar st t) =>
    if st == .aliasStyle then
      match lookupAnchorEnv env t with
      | some (.mapping ms mp) => some (.mapping ms mp)
      | _ => none
    else none
  | _ => none

/-- `fy_node_pair_is_valid_merge_key`: the value exists and is an alias to a
mapping, or a sequence whose items are all aliases to mappings. -/
def fy_node_pair_is_valid_merge_key (env : Env) (p : NodePair) : Bool :=
  match p.2 with
  | none => false
  | some v =>
    (fy_alias_get_merge_mapping env (some v)).isSome ||
    (match v with
     | .sequence _ items =>
       items.all fun it => (fy_alias_get_merge_mapping env (some it)).isSome
     | _ => false)

/-- `fy_resolve_merge_key_populate(fyd, fyn, fynp, fynm)`: walk the referenced
mapping's pairs in order; a pair whose key is already present in the host
mapping — whose pair list reads `before ++ cur :: (inserted ++ rest)` at that
moment — is skipped (`fy_node_mapping_key_is_duplicate`), any other pair is
copied and linked immediately after the merge pair `cur`, i.e. pushed onto
`inserted`.  (`fy_node_copy` within one document is a structural copy sharing
token references — the identity on the tree value; its anchor re-registration
is a no-op because the anchor already exists in this document.) -/
def fy_resolve_merge_key_populate (before : List NodePair) (cur : NodePair)
    (rest : List NodePair) : List NodePair → List NodePair → List NodePair
  | inserted, [] => inserted
  | inserted, p :: ps =>
    if keyIsDuplicate (before ++ cur :: (inserted ++ rest)) p.1 then
      fy_resolve_merge_key_populate before cur rest inserted ps
    else
      fy_resolve_merge_key_populate before cur rest (p :: inserted) ps

/-- `fy_resolve_merge_key(fyd, fyn, fynp)`: reject an invalid merge value;
then populate from the single referenced mapping, or from each referenced
mapping of the sequence in order.  Returns the final segment sitting between
the merge pair and its old successor. -/
def fy_resolve_merge_key (env : Env) (before : List NodePair) (cur : NodePair)
    (rest : List NodePair) : Except Unit (List NodePair) :=
  if ¬fy_node_pair_is_valid_merge_key env cur then .error ()
  else
    match fy_alias_get_merge_mapping env cur.2 with
    | some (.mapping _ mp) => .ok (fy_resolve_merge_key_populate before cur rest [] mp)
    | _ =>
      match cur.2 with
      | some (.sequence _ items) =>
        items.foldlM (fun ins it =>
          match fy_alias_get_merge_mapping env (some it) with
          | some (.mapping _ mp) => .ok (fy_resolve_merge_key_populate before cur rest ins mp)
          | _ => .error ()) []
      | _ => .error ()

/-- Child resolution lifted to a nullable node (`fy_resolve_anchor_node`
returns success on NULL). -/
def resOpt (res : Node → Except Unit Node) : Option Node → Except Unit (Option Node)
  | none => .ok none
  | some x => (res x).map some

/-- The sequence loop of `fy_resolve_anchor_node`. -/
def resolveSeq (res : Node → Except Unit Node) : List Node → Except Unit (List Node)
  | [] => .ok []
  | x :: xs =>
    match res x with
    | .error e => .error e
    | .ok y => (resolveSeq res xs).map (y :: ·)

/-- The mapping loop of `fy_resolve_anchor_node`.  `done` holds pairs already
dealt with — including segments inserted by merge expansion, which the C loop
steps over because `fynpi` was saved before the insertion — and `todo` the
pairs still to visit.  A merge pair is expanded and then removed; any other
pair has key and value resolved in place.  The C loop continues past a
failing pair and reports the first failure; the model stops at it — the
success verdict and the successful result coincide. -/
def resolveWalk (env : Env) (res : Node → Except Unit Node) :
    List NodePair → List NodePair → Except Unit (List NodePair)
  | done, [] => .ok done
  | done, cur :: rest =>
    if fy_node_pair_is_merge_key cur then
      match fy_resolve_merge_key env done cur rest with
      | .error e => .error e
      | .ok ins => resolveWalk env res (done ++ ins) rest
    else
      match resOpt res cur.1 with
      | .error e => .error e
      | .ok k =>
        match resOpt res cur.2 with
        | .error e => .error e
        | .ok v => resolveWalk env res (done ++ [(k, v)]) rest

/-- `fy_resolve_anchor_node`, fuelled by one unit per tree level (the wrapper
supplies size-based fuel, ample for the depth).  An alias scalar is replaced
in place by a structural copy of its anchor target (`fy_resolve_alias` via
`fy_node_copy_to_scalar`) and the copy is not re-visited; an undefined anchor
is "invalid alias".  Other scalars are untouched; sequences and mappings
recurse over their children. -/
def resolveF : Nat → Env → Node → Except Unit Node
  | 0, _, _ => .error ()
  | f + 1, env, n =>
    match n with
    | .scalar st t =>
      if st == .aliasStyle then
        match lookupAnchorEnv env t with
        | some target => .ok target
        | none => .error ()
      else .ok (.scalar st t)
    | .sequence st items =>
      (resolveSeq (resolveF f env) items).map (Node.sequence st)
    | .mapping st pairs =>
      (resolveWalk env (resolveF f env) [] pairs).map (Node.mapping st)

/-- `fy_document_resolve` on a document with root `root` and anchor list
`env` (the subsequent parent-rebuilding pass carries no information the model
keeps). -/
def fy_document_resolve (env : Env) (root : Option Node) : Except Unit (Option Node) :=
  match root with
  | none => .ok none
  | some r => (resolveF (sizeN r + 1) env r).map some

mutual

/-- No mapping anywhere in the node has a pair whose key is a plain scalar
reading `<<` (the post-resolve normalization C3 claims). -/
def nodeMergeFree : Node → Bool
  | .scalar _ _ => true
  | .sequence _ items => listMergeFree items
  | .mapping _ pairs => pairsMergeFree pairs
termination_by structural n => n

def listMergeFree : List Node → Bool
  | [] => true
  | x :: xs => nodeMergeFree x && listMergeFree xs
termination_by structural l => l

def pairsMergeFree : List NodePair → Bool
  | [] => true
  | (k, v) :: ps =>
    !fy_node_pair_is_merge_key (k, v) && optMergeFree k && optMergeFree v && pairsMergeFree ps
termination_by structural p => p

def optMergeFree : Option Node → Bool
  | none => true
  | some x => nodeMergeFree x
termination_by structural o => o

end

/-- The environments under which resolution normalizes merge keys away:
every anchor target is itself merge-free and no target is a plain `<<`
scalar (an alias key resolving to one would mint a fresh merge pair). -/
def envResolveSafe (env : Env) : Bool :=
  env.all fun e => nodeMergeFree e.2 && !plainMergeScalar e.2

/-! ### C2: the claimed merge expansion, spec side -/

/-- Insert `x` immediately after position `i` of `l`. -/
def insertAfterPos (l : List NodePair) (i : Nat) (x : NodePair) : List NodePair :=
  l.take (i + 1) ++ x :: l.drop (i + 1)

/-- C2 spec side, one referenced mapping: for each of its pairs in order,
when the key is not already present in the host mapping `L` by semantic
comparison, insert a deep copy immediately after the merge pair, which sits
at position `i`; keys already present are never overridden. -/
def specMergeOne (i : Nat) : List NodePair → List NodePair → List NodePair
  | L, [] => L
  | L, p :: ps =>
    if keyIsDuplicate L p.1 then specMergeOne i L ps
    else specMergeOne i (insertAfterPos L i p) ps

/-- C2 spec side: process each referenced mapping in order, then remove the
merge pair itself. -/
def specMergeExpand (L : List NodePair) (i : Nat) (ms : List (List NodePair)) :
    List NodePair :=
  (ms.foldl (fun acc m => specMergeOne i acc m) L).eraseIdx i

/-- The referenced mappings of a sequence of aliases, in order. -/
def mergeSeqTargets (env : Env) : List Node → Option (List (List NodePair))
  | [] => some []
  | it :: its =>
    match fy_alias_get_merge_mapping env (some it) with
    | some (.mapping _ mp) =>
      match mergeSeqTargets env its with
      | some ms => some (mp :: ms)
      | none => none
    | _ => none

/-- The referenced mappings of a merge value, in order: the single aliased
mapping (the value is an alias scalar), or the mappings aliased by the items
of the sequence. -/
def mergeTargets (env : Env) : Option Node → Option (List (List NodePair))
  | some (.scalar st t) =>
    match fy_alias_get_merge_mapping env (some (.scalar st t)) with
    | some (.mapping _ mp) => some [mp]
    | _ => none
  | some (.sequence _ items) => mergeSeqTargets env items
  | _ => none

/-! ### Concrete documents for the resolution scenarios -/

/-- A plain scalar node. -/
def pl (s : String) : Node := .scalar .plain (bs s)

/-- An alias scalar node (`FYNS_ALIAS` style, text = anchor name). -/
def al (s : String) : Node := .scalar .aliasStyle (bs s)

/-- S3: `defaults: &d { a: 1, b: 2 }`. -/
def s3Defaults : Node :=
  .mapping .flow [(some (pl "a"), some (pl "1")), (some (pl "b"), some (pl "2"))]

/-- S3: `actual: { <<: *d, b: 3, c: 4 }`. -/
def s3Actual : Node :=
  .mapping .flow [(some (pl "<<"), some (al "d")), (some (pl "b"), some (pl "3")),
    (some (pl "c"), some (pl "4"))]

/-- S3: the whole document root. -/
def s3Root : Node :=
  .mapping .block [(some (pl "defaults"), some s3Defaults), (some (pl "actual"), some s3Actual)]

/-- S3: the anchor list — `d` on the `defaults` mapping. -/
def s3Env : Env := [(bs "d", s3Defaults)]

/-- S3 after resolve: `actual` reads `{a: 1, b: 3, c: 4}` in key order
`a, b, c`. -/
def s3Expected : Node :=
  .mapping .block [(some (pl "defaults"), some s3Defaults),
    (some (pl "actual"), some (.mapping .flow
      [(some (pl "a"), some (pl "1")), (some (pl "b"), some (pl "3")),
       (some (pl "c"), some (pl "4"))]))]

/-- C3 counterexample: `m: &m {k: {<<: *q}}` — a mapping whose copied value
still carries a merge key at resolve time when referenced by a forward
alias. -/
def c3M : Node :=
  .mapping .block [(some (pl "k"), some (.mapping .flow [(some (pl "<<"), some (al "q"))]))]

/-- C3 counterexample: `q: &q {z: 2}`. -/
def c3Q : Node := .mapping .flow [(some (pl "z"), some (pl "2"))]

/-- C3 counterexample document: `a: {<<: *m}` before `m` and `q` are
declared; the builder accepts forward aliases because resolution looks
anchors up in the whole document. -/
def c3Root : Node :=
  .mapping .block
    [(some (pl "a"), some (.mapping .flow [(some (pl "<<"), some (al "m"))])),
     (some (pl "m"), some c3M),
     (some (pl "q"), some c3Q)]

/-- C3 counterexample anchor list. -/
def c3Env : Env := [(bs "m", c3M), (bs "q", c3Q)]

/-- What resolution makes of `c3Root`: the pair inserted under `a` was copied
from the still-unresolved `m` and keeps its nested `<<` pair (inserted pairs
are never re-visited), while `m` itself resolves normally. -/
def c3Expected : Node :=
  .mapping .block
    [(some (pl "a"), some (.mapping .flow
       [(some (pl "k"), some (.mapping .flow [(some (pl "<<"), some (al "q"))]))])),
     (some (pl "m"), some (.mapping .block
       [(some (pl "k"), some (.mapping .flow [(some (pl "z"), some (pl "2"))]))])),
     (some (pl "q"), some c3Q)]

/-- C8: `m: &a {k: *a}` — the anchored mapping is reachable from an alias to
itself. -/
def c8M : Node := .mapping .block [(some (pl "k"), some (al "a"))]

/-- C8 document root. -/
def c8Root : Node := .mapping .block [(some (pl "m"), some c8M)]

/-- C8 anchor list. -/
def c8Env : Env := [(bs "a", c8M)]

/-- What resolution makes of `c8Root`: the alias is replaced by one
structural copy of the anchor target as built, the copy is not re-visited,
and resolution returns success — no error and no unbounded recursion. -/
def c8Expected : Node :=
  .mapping .block [(some (pl "m"), some (.mapping .block [(some (pl "k"), some c8M)]))]

/-! ## Anchors (C7)

`struct fy_anchor` pairs an anchor token with the anchored node; the model
keeps the anchor text and a number standing for the node pointer. -/

abbrev Anchor := Bytes × Nat

/-- Modelled from the spec: `fy-list.h` is outside the embedded sources.
`fy_anchor_list_add` inserts at the head of the list — within the embedded
code the same generated `_list_add` is what `fy_node_sequence_prepend` uses
(while `fy_node_sequence_append` uses `_list_add_tail`), and the spec's
anchor invariant ("lookup returns the most recently declared anchor of that
name") requires the head-first scan of `fy_document_lookup_anchor` to meet
the newest entry first. -/
def fy_anchor_list_add (anchors : List Anchor) (a : Anchor) : List Anchor :=
  a :: anchors

/-- `fy_document_lookup_anchor`: scan the document's anchor list from the
head and return the first anchor whose text has the probe's length and
bytes. -/
def fy_document_lookup_anchor (anchors : List Anchor) (name : Bytes) : Option Anchor :=
  anchors.find? fun a => a.1 == name

/-- The removal step of `fy_document_set_anchor`: unlink the anchor that
`fy_document_lookup_anchor_by_node` finds (the first one on this node), if
any. -/
def eraseFirstByNode : List Anchor → Nat → List Anchor
  | [], _ => []
  | a :: rest, node => if a.2 == node then rest else a :: eraseFirstByNode rest node

/-- `fy_document_set_anchor(fyd, fyn, text, len)` with non-NULL text: drop
the node's existing anchor if any, then add the new anchor at the head of
the list.  (With NULL text the function only removes — that path is not
needed here.) -/
def fy_document_set_anchor (anchors : List Anchor) (node : Nat) (text : Bytes) : List Anchor :=
  fy_anchor_list_add (eraseFirstByNode anchors node) (text, node)

/-- A sequence of anchor declarations `(text, node)`, applied in order. -/
def runSetAnchors (ops : List (Bytes × Nat)) : List Anchor :=
  ops.foldl (fun acc op => fy_document_set_anchor acc op.2 op.1) []

/-- Ghost-stamped variant for stating C7: each surviving anchor remembers the
index of the declaration that created it. -/
def eraseFirstByNodeS : List (Anchor × Nat) → Nat → List (Anchor × Nat)
  | [], _ => []
  | a :: rest, node => if a.1.2 == node then rest else a :: eraseFirstByNodeS rest node

/-- The same run as `runSetAnchors`, with declaration stamps attached. -/
def runStampGo : List (Bytes × Nat) → Nat → List (Anchor × Nat) → List (Anchor × Nat)
  | [], _, acc => acc
  | op :: rest, i, acc => runStampGo rest (i + 1) (((op.1, op.2), i) :: eraseFirstByNodeS acc op.2)

/-- Stamped anchor list after a declaration sequence. -/
def runStamped (ops : List (Bytes × Nat)) : List (Anchor × Nat) :=
  runStampGo ops 0 []

/-! ## Sequence / mapping item access by index (C9) -/

/-- Forward walk of `fy_node_sequence_get_by_index` (and the mapping twin):
`do { fetch } while (fetched && --index >= 0)`. -/
def seqGetFwd {α : Type} : List α → Int → Option α
  | [], _ => none
  | x :: xs, i => if i - 1 ≥ 0 then seqGetFwd xs (i - 1) else some x

/-- Backward walk: `do { fetch backwards } while (fetched && ++index < 0)`;
the caller passes the reversed list. -/
def seqGetBwd {α : Type} : List α → Int → Option α
  | [], _ => none
  | x :: xs, i => if i + 1 < 0 then seqGetBwd xs (i + 1) else some x

/-- `fy_node_sequence_get_by_index`. -/
def fy_node_sequence_get_by_index (n : Option Node) (index : Int) : Option Node :=
  match n with
  | some (.sequence _ items) =>
    if index ≥ 0 then seqGetFwd items index else seqGetBwd items.reverse index
  | _ => none

/-- `fy_node_mapping_get_by_index`. -/
def fy_node_mapping_get_by_index (n : Option Node) (index : Int) : Option NodePair :=
  match n with
  | some (.mapping _ pairs) =>
    if index ≥ 0 then seqGetFwd pairs index else seqGetBwd pairs.reverse index
  | _ => none

end Fy

namespace Fy

/-! # Theorems -/

example : fy_node_compare (some (.scalar .plain (bs "ab")))
    (some (.scalar .doubleQuoted (bs "ab"))) = true := rfl
example : fy_node_compare (some (.scalar .plain (bs "ab")))
    (some (.scalar .plain (bs "ac"))) = false := rfl
example : fy_node_compare none (some (.scalar .plain [])) = true := rfl
example : fy_node_compare
    (some (.mapping .block [(some (.scalar .plain (bs "b")), some (.scalar .plain (bs "2"))),
                            (some (.scalar .plain (bs "a")), some (.scalar .plain (bs "1")))]))
    (some (.mapping .flow  [(some (.scalar .plain (bs "a")), some (.scalar .plain (bs "1"))),
                            (some (.scalar .plain (bs "b")), some (.scalar .plain (bs "2")))]))
    = true := rfl

/-! ### C5 -/

/-- Claim C5 fails on the code: the claimed order puts the scalar key `"a"`
strictly before the scalar key `"ab"` (lexicographically, a strict prefix
sorts first), but `fy_node_mapping_sort_cmp_default` compares scalar keys
with `strncmp` over the shorter length and reports these two pairs as tied. -/
theorem c5_counterexample :
    fy_node_mapping_sort_cmp_default ((some (.scalar .plain (bs "a")), none), 0)
      ((some (.scalar .plain (bs "ab")), none), 1) = 0 ∧
    claim_sort_cmp ((some (.scalar .plain (bs "a")), none), 0)
      ((some (.scalar .plain (bs "ab")), none), 1) = -1 :=
  ⟨rfl, rfl⟩

/-- Claim C5, amended: the default mapping key comparator orders pairs with
mapping keys first, then sequence keys, then scalar keys (NULL keys acting as
empty scalars) compared by `strncmp` of their decoded bytes over the shorter
of the two lengths — so a scalar key that is a prefix of another, or agrees
with it up to a NUL byte, ties with it, with no index tie-break — and breaks
ties between two sequence keys or two mapping keys by the pair's original
insertion index. -/
theorem c5_amended_sort_cmp_default :
    ∀ a b : NodePair × Nat,
      fy_node_mapping_sort_cmp_default a b = amended_sort_cmp a b := by
  intro a b
  obtain ⟨⟨k1, v1⟩, i1⟩ := a
  obtain ⟨⟨k2, v2⟩, i2⟩ := b
  cases k1 with
  | none =>
    cases k2 with
    | none =>
      simp [fy_node_mapping_sort_cmp_default, amended_sort_cmp, claimKeyRank,
        keyStr, scalarKeyText, keyIsMapping, idxCmpInt]
    | some n2 =>
      cases n2 <;>
        simp [fy_node_mapping_sort_cmp_default, amended_sort_cmp, claimKeyRank,
          keyStr, scalarKeyText, keyIsMapping, idxCmpInt]
  | some n1 =>
    cases k2 with
    | none =>
      cases n1 <;>
        simp [fy_node_mapping_sort_cmp_default, amended_sort_cmp, claimKeyRank,
          keyStr, scalarKeyText, keyIsMapping, idxCmpInt]
    | some n2 =>
      cases n1 <;> cases n2 <;>
        simp [fy_node_mapping_sort_cmp_default, amended_sort_cmp, claimKeyRank,
          keyStr, scalarKeyText, keyIsMapping, idxCmpInt]

example : fy_document_resolve s3Env (some s3Root) = .ok (some s3Expected) := rfl
example : fy_document_resolve c3Env (some c3Root) = .ok (some c3Expected) := rfl
example : fy_document_resolve c8Env (some c8Root) = .ok (some c8Expected) := rfl
example : nodeMergeFree c3Expected = false := rfl
example : nodeMergeFree s3Expected = true := rfl

/-! ### C2 -/

theorem insertAfterPos_mid :
    ∀ (before : List NodePair) (cur p : NodePair) (X : List NodePair),
      insertAfterPos (before ++ cur :: X) before.length p = before ++ cur :: p :: X := by
  intro before
  induction before with
  | nil => intro cur p X; rfl
  | cons b bb ih =>
    intro cur p X
    have h := ih cur p X
    simp only [insertAfterPos] at h ⊢
    simp only [List.cons_append, List.length_cons, List.take_succ_cons, List.drop_succ_cons]
    rw [h]

theorem eraseIdx_mid :
    ∀ (before : List NodePair) (cur : NodePair) (X : List NodePair),
      (before ++ cur :: X).eraseIdx before.length = before ++ X := by
  intro before
  induction before with
  | nil => intro cur X; rfl
  | cons b bb ih =>
    intro cur X
    simp only [List.cons_append, List.length_cons, List.eraseIdx_cons_succ, ih]

theorem specMergeOne_populate :
    ∀ (m ins before : List NodePair) (cur : NodePair) (rest : List NodePair),
      specMergeOne before.length (before ++ cur :: (ins ++ rest)) m =
        before ++ cur :: (fy_resolve_merge_key_populate before cur rest ins m ++ rest) := by
  intro m
  induction m with
  | nil => intro ins before cur rest; rfl
  | cons p ps ih =>
    intro ins before cur rest
    by_cases h : keyIsDuplicate (before ++ cur :: (ins ++ rest)) p.1
    · rw [specMergeOne, if_pos h, fy_resolve_merge_key_populate, if_pos h, ih]
    · rw [specMergeOne, if_neg h, fy_resolve_merge_key_populate, if_neg h,
        insertAfterPos_mid]
      have h2 := ih (p :: ins) before cur rest
      simpa using h2

theorem mergeSeq_fold (env : Env) (before : List NodePair) (cur : NodePair)
    (rest : List NodePair) :
    ∀ (items : List Node) (ms : List (List NodePair)) (ins : List NodePair),
      mergeSeqTargets env items = some ms →
      ∃ insf,
        (items.foldlM (fun ins it =>
          match fy_alias_get_merge_mapping env (some it) with
          | some (.mapping _ mp) =>
            Except.ok (fy_resolve_merge_key_populate before cur rest ins mp)
          | _ => Except.error ()) ins) = .ok insf ∧
        ms.foldl (fun acc m => specMergeOne before.length acc m)
            (before ++ cur :: (ins ++ rest)) =
          before ++ cur :: (insf ++ rest) := by
  intro items
  induction items with
  | nil =>
    intro ms ins h
    rw [mergeSeqTargets] at h
    cases h
    exact ⟨ins, rfl, rfl⟩
  | cons it its ih =>
    intro ms ins h
    rw [mergeSeqTargets] at h
    cases hag : fy_alias_get_merge_mapping env (some it) with
    | none => rw [hag] at h; cases h
    | some x =>
      cases x with
      | scalar xs xt => rw [hag] at h; cases h
      | sequence xs xl => rw [hag] at h; cases h
      | mapping xs mp =>
        rw [hag] at h
        cases hits : mergeSeqTargets env its with
        | none => rw [hits] at h; cases h
        | some ms' =>
          rw [hits] at h
          cases h
          obtain ⟨insf, hfold, hspec⟩ :=
            ih ms' (fy_resolve_merge_key_populate before cur rest ins mp) hits
          refine ⟨insf, ?_, ?_⟩
          · rw [List.foldlM_cons, hag]
            exact hfold
          · rw [List.foldl_cons, specMergeOne_populate, hspec]

theorem alias_get_shape (env : Env) (v : Option Node) (x : Node)
    (h : fy_alias_get_merge_mapping env v = some x) :
    ∃ t ms mp, v = some (.scalar .aliasStyle t) ∧
      lookupAnchorEnv env t = some (.mapping ms mp) ∧ x = .mapping ms mp := by
  cases v with
  | none => cases h
  | some n =>
    cases n with
    | scalar st t =>
      rw [fy_alias_get_merge_mapping] at h
      by_cases hst : (st == Style.aliasStyle) = true
      · rw [if_pos hst] at h
        cases hl : lookupAnchorEnv env t with
        | none => rw [hl] at h; cases h
        | some y =>
          rw [hl] at h
          cases y with
          | scalar ys yt => cases h
          | sequence ys yl => cases h
          | mapping ys yp =>
            cases h
            exact ⟨t, ys, yp, by rw [beq_iff_eq] at hst; rw [hst], hl, rfl⟩
      · rw [if_neg hst] at h
        cases h
    | sequence st l => cases h
    | mapping st p => cases h

theorem valid_of_mergeTargets (env : Env) (cur : NodePair) (ms : List (List NodePair))
    (h : mergeTargets env cur.2 = some ms) :
    fy_node_pair_is_valid_merge_key env cur = true := by
  obtain ⟨ck, cv⟩ := cur
  cases cv with
  | none => cases h
  | some v =>
    cases v with
    | scalar st t =>
      have h' : (match fy_alias_get_merge_mapping env (some (.scalar st t)) with
          | some (.mapping _ mp) => some [mp]
          | _ => none) = some ms := h
      cases hag : fy_alias_get_merge_mapping env (some (.scalar st t)) with
      | none => rw [hag] at h'; cases h'
      | some x =>
        show ((fy_alias_get_merge_mapping env (some (.scalar st t))).isSome || false) = true
        rw [hag]
        rfl
    | sequence vs vl =>
      have h' : mergeSeqTargets env vl = some ms := h
      have hall : ∀ its ms', mergeSeqTargets env its = some ms' →
          its.all (fun it => (fy_alias_get_merge_mapping env (some it)).isSome) = true := by
        intro its
        induction its with
        | nil => intro ms' _; rfl
        | cons jt jts ihj =>
          intro ms' hj
          rw [mergeSeqTargets] at hj
          cases hj2 : fy_alias_get_merge_mapping env (some jt) with
          | none => rw [hj2] at hj; cases hj
          | some y =>
            cases y with
            | scalar ys yt => rw [hj2] at hj; cases hj
            | sequence ys yl => rw [hj2] at hj; cases hj
            | mapping ys yp =>
              rw [hj2] at hj
              cases hj3 : mergeSeqTargets env jts with
              | none => rw [hj3] at hj; cases hj
              | some msx =>
                rw [List.all_cons, hj2]
                simp [ihj msx hj3]
      show ((fy_alias_get_merge_mapping env (some (.sequence vs vl))).isSome ||
        vl.all fun it => (fy_alias_get_merge_mapping env (some it)).isSome) = true
      rw [hall vl ms h']
      simp
    | mapping vs vp => cases h

theorem merge_key_spec (env : Env) (before : List NodePair) (cur : NodePair)
    (rest : List NodePair) (ms : List (List NodePair))
    (h : mergeTargets env cur.2 = some ms) :
    ∃ ins, fy_resolve_merge_key env before cur rest = .ok ins ∧
      before ++ (ins ++ rest) = specMergeExpand (before ++ cur :: rest) before.length ms := by
  have hvalid := valid_of_mergeTargets env cur ms h
  have hif : fy_resolve_merge_key env before cur rest =
      (match fy_alias_get_merge_mapping env cur.2 with
       | some (.mapping _ mp) =>
         Except.ok (fy_resolve_merge_key_populate before cur rest [] mp)
       | _ =>
         match cur.2 with
         | some (.sequence _ items) =>
           items.foldlM (fun ins it =>
             match fy_alias_get_merge_mapping env (some it) with
             | some (.mapping _ mp) =>
               Except.ok (fy_resolve_merge_key_populate before cur rest ins mp)
             | _ => Except.error ()) []
         | _ => Except.error ()) := by
    rw [fy_resolve_merge_key, if_neg (by simp [hvalid])]
  obtain ⟨ck, cv⟩ := cur
  cases cv with
  | none => cases h
  | some v =>
    cases v with
    | scalar st t =>
      have h' : (match fy_alias_get_merge_mapping env (some (.scalar st t)) with
          | some (.mapping _ mp) => some [mp]
          | _ => none) = some ms := h
      cases hag : fy_alias_get_merge_mapping env (some (.scalar st t)) with
      | none => rw [hag] at h'; cases h'
      | some x =>
        obtain ⟨t2, ms2, mp2, hveq, hl, hx⟩ := alias_get_shape env _ x hag
        rw [hag, hx] at h'
        have h'' : some [mp2] = some ms := h'
        cases h''
        rw [hif, hag, hx]
        refine ⟨fy_resolve_merge_key_populate before (ck, some (.scalar st t)) rest [] mp2,
          rfl, ?_⟩
        rw [specMergeExpand, List.foldl_cons, List.foldl_nil]
        have h3 : (before ++ (ck, some (.scalar st t)) :: rest) =
            before ++ (ck, some (.scalar st t)) :: (([] : List NodePair) ++ rest) := by
          simp
        rw [h3, specMergeOne_populate, eraseIdx_mid]
    | sequence vs vl =>
      have h' : mergeSeqTargets env vl = some ms := h
      obtain ⟨insf, hfold, hspec⟩ := mergeSeq_fold env before (ck, some (.sequence vs vl))
        rest vl ms [] h'
      refine ⟨insf, ?_, ?_⟩
      · rw [hif]
        exact hfold
      · rw [specMergeExpand]
        have h3 : (before ++ (ck, some (.sequence vs vl)) :: rest) =
            before ++ (ck, some (.sequence vs vl)) :: (([] : List NodePair) ++ rest) := by
          simp
        rw [h3, hspec, eraseIdx_mid]
    | mapping vs vp => cases h

/-- Claim C2: for a merge pair sitting between `before` and `rest` in its
mapping, with referenced mappings `ms` (one aliased mapping, or each mapping
of a sequence of aliases, in order), `fy_resolve_merge_key` succeeds, and
splicing its inserted segment in place of the merge pair is exactly the
claimed expansion: for each `(k,v)` of each referenced mapping in order,
insert a deep copy immediately after the merge pair when `k` is not already
present in the mapping by semantic comparison (present keys are never
overridden), then remove the merge pair.  On scenario S3 the document
resolves so that `actual` reads `{a: 1, b: 3, c: 4}` in key order
`a, b, c`. -/
theorem c2_merge_key_expansion :
    (∀ (env : Env) (before : List NodePair) (cur : NodePair) (rest : List NodePair)
      (ms : List (List NodePair)), mergeTargets env cur.2 = some ms →
      ∃ ins, fy_resolve_merge_key env before cur rest = .ok ins ∧
        before ++ (ins ++ rest) =
          specMergeExpand (before ++ cur :: rest) before.length ms) ∧
    fy_document_resolve s3Env (some s3Root) = .ok (some s3Expected) :=
  ⟨merge_key_spec, rfl⟩

/-- Closed instance of `c2_merge_key_expansion` at the S3 merge pair: the
expansion inserts `a: 1`, skips the already-present `b`, and removing the
merge pair leaves `{a: 1, b: 3, c: 4}`. -/
theorem c2_witness :
    ∃ ins, fy_resolve_merge_key s3Env [] (some (pl "<<"), some (al "d"))
        [(some (pl "b"), some (pl "3")), (some (pl "c"), some (pl "4"))] = .ok ins ∧
      [] ++ (ins ++ [(some (pl "b"), some (pl "3")), (some (pl "c"), some (pl "4"))]) =
        specMergeExpand
          ((some (pl "<<"), some (al "d")) ::
            [(some (pl "b"), some (pl "3")), (some (pl "c"), some (pl "4"))])
          0 [[(some (pl "a"), some (pl "1")), (some (pl "b"), some (pl "2"))]] :=
  c2_merge_key_expansion.1 s3Env [] (some (pl "<<"), some (al "d"))
    [(some (pl "b"), some (pl "3")), (some (pl "c"), some (pl "4"))]
    [[(some (pl "a"), some (pl "1")), (some (pl "b"), some (pl "2"))]] (by rfl)

/-! ### C3 -/

theorem pairsMergeFree_append :
    ∀ x y : List NodePair, pairsMergeFree (x ++ y) = (pairsMergeFree x && pairsMergeFree y) := by
  intro x y
  induction x with
  | nil => simp [pairsMergeFree]
  | cons p ps ih =>
    obtain ⟨k, v⟩ := p
    simp [pairsMergeFree, ih, Bool.and_assoc]

theorem lookupAnchorEnv_safe (env : Env) (name : Bytes) (n : Node)
    (henv : envResolveSafe env = true) (h : lookupAnchorEnv env name = some n) :
    nodeMergeFree n = true ∧ plainMergeScalar n = false := by
  rw [lookupAnchorEnv] at h
  cases hf : env.find? (fun e => e.1 == name) with
  | none => rw [hf] at h; cases h
  | some e =>
    rw [hf] at h
    have h' : some e.2 = some n := h
    cases h'
    have hmem := List.mem_of_find?_eq_some hf
    have := List.all_eq_true.1 henv e hmem
    simp only [Bool.and_eq_true, Bool.not_eq_true'] at this
    exact this

theorem mergeKey_eq_plain (x : Node) (v : Option Node) :
    fy_node_pair_is_merge_key (some x, v) = plainMergeScalar x := by
  cases x with
  | scalar st t => cases st <;> rfl
  | sequence st l => rfl
  | mapping st p => rfl

theorem populate_mergeFree :
    ∀ (m ins : List NodePair) (before : List NodePair) (cur : NodePair)
      (rest : List NodePair), pairsMergeFree ins = true → pairsMergeFree m = true →
      pairsMergeFree (fy_resolve_merge_key_populate before cur rest ins m) = true := by
  intro m
  induction m with
  | nil => intro ins before cur rest h1 _; exact h1
  | cons p ps ih =>
    intro ins before cur rest h1 h2
    obtain ⟨k, v⟩ := p
    rw [pairsMergeFree] at h2
    simp only [Bool.and_eq_true] at h2
    by_cases hd : keyIsDuplicate (before ++ cur :: (ins ++ rest)) k
    · rw [fy_resolve_merge_key_populate, if_pos hd]
      exact ih ins before cur rest h1 h2.2
    · rw [fy_resolve_merge_key_populate, if_neg hd]
      apply ih _ before cur rest _ h2.2
      rw [pairsMergeFree]
      simp [h1, h2.1.1.1, h2.1.1.2, h2.1.2]

theorem alias_get_pairs_safe (env : Env) (v : Option Node) (ms : Style)
    (mp : List NodePair) (henv : envResolveSafe env = true)
    (hag : fy_alias_get_merge_mapping env v = some (.mapping ms mp)) :
    pairsMergeFree mp = true := by
  obtain ⟨t, ms2, mp2, hv, hl, hx⟩ := alias_get_shape env v _ hag
  cases hx
  exact (lookupAnchorEnv_safe env t _ henv hl).1

theorem foldPopulate_mergeFree (env : Env) (before : List NodePair) (cur : NodePair)
    (rest : List NodePair) (henv : envResolveSafe env = true) :
    ∀ (items : List Node) (ins0 insf : List NodePair), pairsMergeFree ins0 = true →
      (items.foldlM (fun ins it =>
        match fy_alias_get_merge_mapping env (some it) with
        | some (.mapping _ mp) =>
          Except.ok (fy_resolve_merge_key_populate before cur rest ins mp)
        | _ => Except.error ()) ins0) = .ok insf →
      pairsMergeFree insf = true := by
  intro items
  induction items with
  | nil =>
    intro ins0 insf h0 h
    have h' : Except.ok ins0 = Except.ok insf := h
    cases h'
    exact h0
  | cons it its ih =>
    intro ins0 insf h0 h
    rw [List.foldlM_cons] at h
    cases hag : fy_alias_get_merge_mapping env (some it) with
    | none => rw [hag] at h; cases h
    | some x =>
      cases x with
      | scalar xs xt => rw [hag] at h; cases h
      | sequence xs xl => rw [hag] at h; cases h
      | mapping xs mp =>
        rw [hag] at h
        have h' : (its.foldlM (fun ins it =>
            match fy_alias_get_merge_mapping env (some it) with
            | some (.mapping _ mp) =>
              Except.ok (fy_resolve_merge_key_populate before cur rest ins mp)
            | _ => Except.error ()) (fy_resolve_merge_key_populate before cur rest ins0 mp)) =
            .ok insf := h
        exact ih _ insf (populate_mergeFree mp ins0 before cur rest h0
          (alias_get_pairs_safe env (some it) xs mp henv hag)) h'

theorem merge_key_mergeFree (env : Env) (before : List NodePair) (cur : NodePair)
    (rest : List NodePair) (ins : List NodePair)
    (henv : envResolveSafe env = true)
    (h : fy_resolve_merge_key env before cur rest = .ok ins) :
    pairsMergeFree ins = true := by
  by_cases hval : fy_node_pair_is_valid_merge_key env cur = true
  · rw [fy_resolve_merge_key, if_neg (by simp [hval])] at h
    cases hag : fy_alias_get_merge_mapping env cur.2 with
    | some x =>
      obtain ⟨t, ms2, mp2, hv, hl, hx⟩ := alias_get_shape env _ x hag
      rw [hag, hx] at h
      have h' : Except.ok (fy_resolve_merge_key_populate before cur rest [] mp2) =
          Except.ok ins := h
      cases h'
      exact populate_mergeFree mp2 [] before cur rest rfl
        (alias_get_pairs_safe env cur.2 ms2 mp2 henv (by rw [hag, hx]))
    | none =>
      rw [hag] at h
      obtain ⟨ck, cv⟩ := cur
      cases cv with
      | none => cases h
      | some v =>
        cases v with
        | scalar st t => cases h
        | mapping vs vp => cases h
        | sequence vs vl =>
          have h' : (vl.foldlM (fun ins it =>
              match fy_alias_get_merge_mapping env (some it) with
              | some (.mapping _ mp) => Except.ok (fy_resolve_merge_key_populate before
                  (ck, some (.sequence vs vl)) rest ins mp)
              | _ => Except.error ()) []) = .ok ins := h
          exact foldPopulate_mergeFree env before (ck, some (.sequence vs vl)) rest henv
            vl [] ins rfl h'
  · rw [fy_resolve_merge_key, if_pos (by simp [hval])] at h
    cases h

theorem resOpt_mergeFree (res : Node → Except Unit Node)
    (hres1 : ∀ x r, res x = .ok r → nodeMergeFree r = true) :
    ∀ o k, resOpt res o = .ok k → optMergeFree k = true := by
  intro o k h
  cases o with
  | none =>
    have h' : Except.ok (none : Option Node) = Except.ok k := h
    cases h'
    rfl
  | some x =>
    cases hr : res x with
    | error e => rw [resOpt, hr] at h; cases h
    | ok r =>
      rw [resOpt, hr] at h
      have h' : Except.ok (some r) = Except.ok k := h
      cases h'
      exact hres1 x r hr

theorem resOpt_plain (res : Node → Except Unit Node)
    (hres2 : ∀ x r, plainMergeScalar x = false → res x = .ok r → plainMergeScalar r = false) :
    ∀ o k, fy_node_pair_is_merge_key (o, none) = false → resOpt res o = .ok k →
      fy_node_pair_is_merge_key (k, none) = false := by
  intro o k ho h
  cases o with
  | none =>
    have h' : Except.ok (none : Option Node) = Except.ok k := h
    cases h'
    rfl
  | some x =>
    cases hr : res x with
    | error e => rw [resOpt, hr] at h; cases h
    | ok r =>
      rw [resOpt, hr] at h
      have h' : Except.ok (some r) = Except.ok k := h
      cases h'
      rw [mergeKey_eq_plain] at ho ⊢
      exact hres2 x r ho hr

theorem resolveSeq_mergeFree (res : Node → Except Unit Node)
    (hres1 : ∀ x r, res x = .ok r → nodeMergeFree r = true) :
    ∀ items out, resolveSeq res items = .ok out → listMergeFree out = true := by
  intro items
  induction items with
  | nil =>
    intro out h
    have h' : Except.ok ([] : List Node) = Except.ok out := h
    cases h'
    rfl
  | cons x xs ih =>
    intro out h
    rw [resolveSeq] at h
    cases hr : res x with
    | error e => rw [hr] at h; cases h
    | ok y =>
      rw [hr] at h
      cases hs : resolveSeq res xs with
      | error e => rw [hs] at h; cases h
      | ok ys =>
        rw [hs] at h
        have h' : Except.ok (y :: ys) = Except.ok out := h
        cases h'
        rw [listMergeFree]
        simp [hres1 x y hr, ih ys hs]

theorem resolveF_plain_preserve (f : Nat) (env : Env)
    (henv : envResolveSafe env = true) :
    ∀ (x r : Node), plainMergeScalar x = false → resolveF f env x = .ok r →
      plainMergeScalar r = false := by
  intro x r hx h
  cases f with
  | zero => cases h
  | succ f =>
    cases x with
    | scalar st t =>
      rw [resolveF] at h
      by_cases hst : (st == Style.aliasStyle) = true
      · rw [if_pos hst] at h
        cases hl : lookupAnchorEnv env t with
        | none => rw [hl] at h; cases h
        | some target =>
          rw [hl] at h
          have h' : Except.ok target = Except.ok r := h
          cases h'
          exact (lookupAnchorEnv_safe env t r henv hl).2
      · rw [if_neg hst] at h
        have h' : Except.ok (Node.scalar st t) = Except.ok r := h
        cases h'
        exact hx
    | sequence st items =>
      rw [resolveF] at h
      cases hs : resolveSeq (resolveF f env) items with
      | error e => rw [hs] at h; cases h
      | ok l =>
        rw [hs] at h
        have h' : Except.ok (Node.sequence st l) = Except.ok r := h
        cases h'
        rfl
    | mapping st pairs =>
      rw [resolveF] at h
      cases hw : resolveWalk env (resolveF f env) [] pairs with
      | error e => rw [hw] at h; cases h
      | ok l =>
        rw [hw] at h
        have h' : Except.ok (Node.mapping st l) = Except.ok r := h
        cases h'
        rfl

theorem resolveWalk_mergeFree (env : Env) (res : Node → Except Unit Node)
    (henv : envResolveSafe env = true)
    (hres1 : ∀ x r, res x = .ok r → nodeMergeFree r = true)
    (hres2 : ∀ x r, plainMergeScalar x = false → res x = .ok r → plainMergeScalar r = false) :
    ∀ (todo done out : List NodePair), pairsMergeFree done = true →
      resolveWalk env res done todo = .ok out → pairsMergeFree out = true := by
  intro todo
  induction todo with
  | nil =>
    intro done out hdone h
    have h' : Except.ok done = Except.ok out := h
    cases h'
    exact hdone
  | cons cur rest ih =>
    intro done out hdone h
    rw [resolveWalk] at h
    by_cases hmk : fy_node_pair_is_merge_key cur = true
    · rw [if_pos hmk] at h
      cases hmg : fy_resolve_merge_key env done cur rest with
      | error e => rw [hmg] at h; cases h
      | ok ins =>
        rw [hmg] at h
        apply ih (done ++ ins) out _ h
        rw [pairsMergeFree_append, hdone,
          merge_key_mergeFree env done cur rest ins henv hmg]
        rfl
    · rw [if_neg hmk] at h
      cases hk : resOpt res cur.1 with
      | error e => rw [hk] at h; cases h
      | ok k =>
        rw [hk] at h
        cases hv : resOpt res cur.2 with
        | error e => rw [hv] at h; cases h
        | ok v =>
          rw [hv] at h
          apply ih (done ++ [(k, v)]) out _ h
          rw [pairsMergeFree_append, hdone]
          have hk1 : optMergeFree k = true := resOpt_mergeFree res hres1 cur.1 k hk
          have hv1 : optMergeFree v = true := resOpt_mergeFree res hres1 cur.2 v hv
          have hnm : fy_node_pair_is_merge_key (k, none) = false := by
            apply resOpt_plain res hres2 cur.1 k _ hk
            cases hc1 : cur.1 with
            | none => rfl
            | some x =>
              rw [mergeKey_eq_plain]
              have := hmk
              rw [show cur = (cur.1, cur.2) from rfl, hc1] at this
              rw [mergeKey_eq_plain] at this
              simpa using this
          have hnm2 : fy_node_pair_is_merge_key (k, v) = false := by
            cases k with
            | none => rfl
            | some kx =>
              rw [mergeKey_eq_plain] at hnm ⊢
              exact hnm
          rw [pairsMergeFree]
          simp [hnm2, hk1, hv1, pairsMergeFree]

theorem resolveF_mergeFree :
    ∀ (f : Nat) (env : Env) (n out : Node), envResolveSafe env = true →
      resolveF f env n = .ok out → nodeMergeFree out = true := by
  intro f
  induction f with
  | zero => intro env n out _ h; cases h
  | succ f ih =>
    intro env n out henv h
    cases n with
    | scalar st t =>
      rw [resolveF] at h
      by_cases hst : (st == Style.aliasStyle) = true
      · rw [if_pos hst] at h
        cases hl : lookupAnchorEnv env t with
        | none => rw [hl] at h; cases h
        | some target =>
          rw [hl] at h
          have h' : Except.ok target = Except.ok out := h
          cases h'
          exact (lookupAnchorEnv_safe env t out henv hl).1
      · rw [if_neg hst] at h
        have h' : Except.ok (Node.scalar st t) = Except.ok out := h
        cases h'
        rfl
    | sequence st items =>
      rw [resolveF] at h
      cases hs : resolveSeq (resolveF f env) items with
      | error e => rw [hs] at h; cases h
      | ok l =>
        rw [hs] at h
        have h' : Except.ok (Node.sequence st l) = Except.ok out := h
        cases h'
        exact resolveSeq_mergeFree (resolveF f env)
          (fun x r hr => ih env x r henv hr) items l hs
    | mapping st pairs =>
      rw [resolveF] at h
      cases hw : resolveWalk env (resolveF f env) [] pairs with
      | error e => rw [hw] at h; cases h
      | ok l =>
        rw [hw] at h
        have h' : Except.ok (Node.mapping st l) = Except.ok out := h
        cases h'
        exact resolveWalk_mergeFree env (resolveF f env) henv
          (fun x r hr => ih env x r henv hr)
          (fun x r hx hr => resolveF_plain_preserve f env henv x r hx hr)
          pairs [] l rfl hw

/-- Claim C3 fails on the code as stated: this document resolves successfully
(`fy_document_resolve` returns 0) yet the resolved tree still holds a mapping
pair whose key is the plain scalar `<<` — the pair was inserted by merge-key
expansion itself, copied from a forward-referenced mapping that had not been
resolved yet, and inserted pairs are never re-visited. -/
theorem c3_counterexample :
    fy_document_resolve c3Env (some c3Root) = .ok (some c3Expected) ∧
    optMergeFree (some c3Expected) = false :=
  ⟨rfl, rfl⟩

/-- Claim C3, amended: when every anchor target is merge-free and no anchor
target is itself a plain `<<` scalar — in particular whenever aliases only
reference mappings that are already resolved, the normal
declared-before-use situation — a document on which `fy_document_resolve`
succeeds contains no mapping pair keyed by a plain `<<` scalar, including in
pairs inserted by merge-key expansion.  In general a merge that references a
not-yet-resolved mapping copies any nested `<<` pairs verbatim and never
revisits them (see the counterexample). -/
theorem c3_amended_merge_normalization :
    ∀ (env : Env) (root out : Option Node), envResolveSafe env = true →
      fy_document_resolve env root = .ok out → optMergeFree out = true := by
  intro env root out henv h
  cases root with
  | none =>
    have h' : Except.ok (none : Option Node) = Except.ok out := h
    cases h'
    rfl
  | some r =>
    rw [fy_document_resolve] at h
    cases hr : resolveF (sizeN r + 1) env r with
    | error e => rw [hr] at h; cases h
    | ok n =>
      rw [hr] at h
      have h' : Except.ok (some n) = Except.ok out := h
      cases h'
      exact resolveF_mergeFree (sizeN r + 1) env r n henv hr

/-- Closed instance of `c3_amended_merge_normalization`: a backward-referenced
merge (`w: &w {x: 1}` then `t: {<<: *w}`) resolves to a document with no
`<<` keys. -/
theorem c3_witness :
    optMergeFree (some (.mapping .block
      [(some (pl "w"), some (.mapping .flow [(some (pl "x"), some (pl "1"))])),
       (some (pl "t"), some (.mapping .flow [(some (pl "x"), some (pl "1"))]))])) = true :=
  c3_amended_merge_normalization
    [(bs "w", .mapping .flow [(some (pl "x"), some (pl "1"))])]
    (some (.mapping .block
      [(some (pl "w"), some (.mapping .flow [(some (pl "x"), some (pl "1"))])),
       (some (pl "t"), some (.mapping .flow [(some (pl "<<"), some (al "w"))]))]))
    (some (.mapping .block
      [(some (pl "w"), some (.mapping .flow [(some (pl "x"), some (pl "1"))])),
       (some (pl "t"), some (.mapping .flow [(some (pl "x"), some (pl "1"))]))]))
    (by rfl) (by rfl)

/-! ### C7 -/

theorem eraseFirstByNodeS_map (acc : List (Anchor × Nat)) (n : Nat) :
    (eraseFirstByNodeS acc n).map Prod.fst = eraseFirstByNode (acc.map Prod.fst) n := by
  induction acc with
  | nil => rfl
  | cons a rest ih =>
    by_cases h : a.1.2 == n
    · simp [eraseFirstByNodeS, eraseFirstByNode, h]
    · simp only [eraseFirstByNodeS, eraseFirstByNode, h]
      simp at h
      simp [h, ih]

theorem runStampGo_map :
    ∀ (ops : List (Bytes × Nat)) (i : Nat) (acc : List (Anchor × Nat)),
      (runStampGo ops i acc).map Prod.fst =
        ops.foldl (fun l op => fy_document_set_anchor l op.2 op.1) (acc.map Prod.fst) := by
  intro ops
  induction ops with
  | nil => intro i acc; rfl
  | cons op rest ih =>
    intro i acc
    rw [runStampGo, ih, List.foldl_cons]
    congr 1
    rw [fy_document_set_anchor, fy_anchor_list_add]
    simp [eraseFirstByNodeS_map]

theorem eraseFirstByNodeS_sublist (acc : List (Anchor × Nat)) (n : Nat) :
    (eraseFirstByNodeS acc n).Sublist acc := by
  induction acc with
  | nil => simp [eraseFirstByNodeS]
  | cons a rest ih =>
    by_cases h : a.1.2 == n
    · simp only [eraseFirstByNodeS, if_pos h]
      exact (List.sublist_cons_self a rest)
    · simp only [eraseFirstByNodeS, if_neg h]
      exact ih.cons₂ a

theorem runStampGo_pairwise :
    ∀ (ops : List (Bytes × Nat)) (i : Nat) (acc : List (Anchor × Nat)),
      acc.Pairwise (fun x y => y.2 < x.2) → (∀ x ∈ acc, x.2 < i) →
      (runStampGo ops i acc).Pairwise (fun x y => y.2 < x.2) := by
  intro ops
  induction ops with
  | nil => intro i acc hp _; exact hp
  | cons op rest ih =>
    intro i acc hp hb
    rw [runStampGo]
    apply ih (i + 1)
    · constructor
      · intro y hy
        exact hb y ((eraseFirstByNodeS_sublist acc op.2).mem hy)
      · exact hp.sublist (eraseFirstByNodeS_sublist acc op.2)
    · intro x hx
      rcases List.mem_cons.1 hx with hx | hx
      · rw [hx]; omega
      · have := hb x ((eraseFirstByNodeS_sublist acc op.2).mem hx)
        omega

theorem find?_stamp_max :
    ∀ (l : List (Anchor × Nat)) (p : Anchor × Nat → Bool),
      l.Pairwise (fun x y => y.2 < x.2) →
      ∀ a, l.find? p = some a → ∀ b ∈ l, p b = true → b.2 ≤ a.2 := by
  intro l p
  induction l with
  | nil => intro _ a h; cases h
  | cons x xs ih =>
    intro hp a hfind b hb hpb
    by_cases hx : p x
    · rw [List.find?_cons_of_pos _ hx] at hfind
      cases hfind
      rcases List.mem_cons.1 hb with hb | hb
      · rw [hb]
      · exact le_of_lt (List.rel_of_pairwise_cons hp hb)
    · rw [List.find?_cons_of_neg _ hx] at hfind
      rcases List.mem_cons.1 hb with hb | hb
      · rw [hb] at hpb; exact absurd hpb hx
      · exact ih hp.of_cons a hfind b hb hpb

/-- Claim C7: after any sequence of anchor declarations, looking an anchor up
by name scans the list the declarations built head-first, and the anchor it
returns is the one declared last among the surviving anchors of that name:
its declaration stamp dominates the stamp of every anchor of that name in
the list; when no anchor of that name survives the lookup returns NULL.
(`fy_parse_document_register_anchor` refuses a second anchor of the same
name outright, so equal-text anchors only ever arise through
`fy_document_set_anchor`.) -/
theorem c7_lookup_most_recent (ops : List (Bytes × Nat)) (name : Bytes) :
    (fy_document_lookup_anchor (runSetAnchors ops) name =
      ((runStamped ops).find? (fun b => b.1.1 == name)).map Prod.fst) ∧
    (∀ a stamp, (runStamped ops).find? (fun b => b.1.1 == name) = some (a, stamp) →
      ∀ b ∈ runStamped ops, b.1.1 = name → b.2 ≤ stamp) ∧
    ((runStamped ops).find? (fun b => b.1.1 == name) = none →
      ∀ b ∈ runStamped ops, b.1.1 ≠ name) := by
  refine ⟨?_, ?_, ?_⟩
  · have hrun : runSetAnchors ops = (runStamped ops).map Prod.fst := by
      rw [runStamped, runStampGo_map]
      rfl
    rw [fy_document_lookup_anchor, hrun, List.find?_map]
    rfl
  · intro a stamp hfind b hb hbn
    have hpw := runStampGo_pairwise ops 0 [] (by simp) (by simp)
    exact find?_stamp_max (runStamped ops) _ hpw (a, stamp) hfind b hb (by simp [hbn])
  · intro hnone b hb hbn
    have := List.find?_eq_none.1 hnone b hb
    simp [hbn] at this

/-- Closed instance of `c7_lookup_most_recent`: with declarations
`x → node 1`, `y → node 2`, `x → node 3`, looking up `x` returns the anchor
of node `3` — the `x` declared last — and its stamp `2` dominates both
surviving stamps. -/
theorem c7_witness :
    fy_document_lookup_anchor (runSetAnchors [(bs "x", 1), (bs "y", 2), (bs "x", 3)]) (bs "x") =
      some (bs "x", 3) ∧
    ((runStamped [(bs "x", 1), (bs "y", 2), (bs "x", 3)]).find?
        (fun b => b.1.1 == bs "x")).map Prod.fst = some (bs "x", 3) := by
  have h := c7_lookup_most_recent [(bs "x", 1), (bs "y", 2), (bs "x", 3)] (bs "x")
  refine ⟨?_, ?_⟩
  · rw [h.1]; rfl
  · rfl

/-! ### C9 -/

theorem seqGetFwd_eq {α : Type} :
    ∀ (l : List α) (i : Int), 0 ≤ i → seqGetFwd l i = l.get? i.toNat := by
  intro l
  induction l with
  | nil => intro i _; simp [seqGetFwd]
  | cons x xs ih =>
    intro i hi
    by_cases h : i - 1 ≥ 0
    · have h1 : i.toNat = (i - 1).toNat + 1 := by omega
      rw [seqGetFwd, if_pos h, ih (i - 1) (by omega), h1, List.get?_cons_succ]
    · have h0 : i = 0 := by omega
      subst h0
      rw [seqGetFwd, if_neg h]
      rfl

theorem seqGetBwd_eq {α : Type} :
    ∀ (l : List α) (i : Int), i < 0 → seqGetBwd l i = l.get? ((-i).toNat - 1) := by
  intro l
  induction l with
  | nil => intro i _; simp [seqGetBwd]
  | cons x xs ih =>
    intro i hi
    by_cases h : i + 1 < 0
    · have h1 : (-i).toNat - 1 = ((-(i + 1)).toNat - 1) + 1 := by omega
      rw [seqGetBwd, if_pos h, ih (i + 1) h, h1, List.get?_cons_succ]
    · have h1 : (-i).toNat - 1 = 0 := by omega
      rw [seqGetBwd, if_neg h, h1]
      rfl

theorem getAt_spec {α : Type} (l : List α) (i : Int) :
    (if i ≥ 0 then seqGetFwd l i else seqGetBwd l.reverse i) =
      (if 0 ≤ i then l.get? i.toNat
       else if (-i).toNat ≤ l.length then l.get? (l.length - (-i).toNat) else none) := by
  by_cases h : 0 ≤ i
  · simp [h, seqGetFwd_eq l i h]
  · have hneg : i < 0 := by omega
    rw [if_neg (by omega), if_neg h, seqGetBwd_eq l.reverse i hneg]
    by_cases hin : (-i).toNat ≤ l.length
    · rw [if_pos hin]
      have hlt : (-i).toNat - 1 < l.length := by omega
      simp only [List.get?_eq_getElem?]
      rw [List.getElem?_reverse (by simpa using hlt)]
      congr 1
      omega
    · rw [if_neg hin]
      simp only [List.get?_eq_getElem?]
      rw [List.getElem?_eq_none (by simp; omega)]

/-- Claim C9: `fy_node_sequence_get_by_index` and
`fy_node_mapping_get_by_index` accept negative indices counting from the end:
a non-negative `i` fetches the `i`-th item from the front (NULL when out of
range), a negative `i` fetches the `(-i)`-th item from the back, `-1` being
the last item (NULL when out of range). -/
theorem c9_get_by_index (st : Style) (items : List Node) (pairs : List NodePair)
    (i : Int) :
    fy_node_sequence_get_by_index (some (.sequence st items)) i =
      (if 0 ≤ i then items.get? i.toNat
       else if (-i).toNat ≤ items.length then items.get? (items.length - (-i).toNat)
       else none) ∧
    fy_node_mapping_get_by_index (some (.mapping st pairs)) i =
      (if 0 ≤ i then pairs.get? i.toNat
       else if (-i).toNat ≤ pairs.length then pairs.get? (pairs.length - (-i).toNat)
       else none) := by
  constructor
  · rw [fy_node_sequence_get_by_index, getAt_spec]
  · rw [fy_node_mapping_get_by_index, getAt_spec]

/-- Closed instance of `c9_get_by_index` (hypothesis-free, evaluated): on a
three-item sequence, index `-1` is the last item and index `3` is NULL. -/
theorem c9_witness :
    fy_node_sequence_get_by_index
      (some (.sequence .flow [.scalar .plain (bs "x"), .scalar .plain (bs "y"),
        .scalar .plain (bs "z")])) (-1) = some (.scalar .plain (bs "z")) ∧
    fy_node_sequence_get_by_index
      (some (.sequence .flow [.scalar .plain (bs "x"), .scalar .plain (bs "y"),
        .scalar .plain (bs "z")])) 3 = none := by
  have h1 := (c9_get_by_index .flow
    [Node.scalar .plain (bs "x"), Node.scalar .plain (bs "y"), Node.scalar .plain (bs "z")]
    [] (-1)).1
  have h2 := (c9_get_by_index .flow
    [Node.scalar .plain (bs "x"), Node.scalar .plain (bs "y"), Node.scalar .plain (bs "z")]
    [] 3).1
  refine ⟨?_, ?_⟩
  · rw [h1]; rfl
  · rw [h2]; rfl

/-! ### C10 -/

/-- Claim C10: `fy_node_mapping_remove_by_key` removes the first pair whose
key compares semantically equal to the given key and returns that pair's
value; without a matching key it returns NULL and leaves the mapping
unchanged.  (The C code additionally clears the returned value's parent
pointer and frees the probe key when it is not the stored key — pointer
bookkeeping outside this model.) -/
theorem specRemoveGo_eq_findIdx (key : Option Node) :
    ∀ pairs : List NodePair,
      specRemoveGo key pairs =
        match pairs.findIdx? (fun q => fy_node_compare q.1 key) with
        | some i => some ((pairs.get? i).bind Prod.snd, pairs.eraseIdx i)
        | none => none := by
  intro pairs
  induction pairs with
  | nil => rfl
  | cons p rest ih =>
    by_cases h : fy_node_compare p.1 key
    · simp [specRemoveGo, List.findIdx?_cons, h]
    · rw [specRemoveGo, if_neg (by simp [h]), ih]
      rw [List.findIdx?_cons, if_neg (by simp [h])]
      cases hidx : List.findIdx? (fun q => fy_node_compare q.1 key) rest with
      | none => simp [hidx]
      | some i => simp [hidx, List.eraseIdx_cons_succ]

/-! ### C4 -/

theorem loadGo_idx :
    ∀ (items : List NodePair) (acc : List NodePair),
      ((List.range items.length).find? (fun i => dupAt acc items i) = none →
        loadMappingGo acc items = .ok (acc ++ items)) ∧
      (∀ i p, (List.range items.length).find? (fun i => dupAt acc items i) = some i →
        items.get? i = some p → loadMappingGo acc items = .error p.1) := by
  intro items
  induction items with
  | nil =>
    intro acc
    refine ⟨fun _ => by simp [loadMappingGo], fun i p h => ?_⟩
    rw [List.length_nil, List.range_zero, List.find?_nil] at h
    cases h
  | cons q rest ih =>
    intro acc
    obtain ⟨k, v⟩ := q
    have hzero : dupAt acc ((k, v) :: rest) 0 = keyIsDuplicate acc k := by
      simp [dupAt]
    have hsucc : ∀ j, dupAt acc ((k, v) :: rest) (j + 1) = dupAt (acc ++ [(k, v)]) rest j := by
      intro j
      simp [dupAt, List.append_assoc]
    have hcomp : ((fun i => dupAt acc ((k, v) :: rest) i) ∘ Nat.succ) =
        fun j => dupAt (acc ++ [(k, v)]) rest j := by
      funext j
      exact hsucc j
    have hrange :
        (List.range ((k, v) :: rest).length).find? (fun i => dupAt acc ((k, v) :: rest) i) =
          if keyIsDuplicate acc k then some 0
          else ((List.range rest.length).find?
            (fun i => dupAt (acc ++ [(k, v)]) rest i)).map Nat.succ := by
      rw [List.length_cons, List.range_succ_eq_map, List.find?_cons, hzero]
      cases hd2 : keyIsDuplicate acc k with
      | false => simp [List.find?_map, hcomp]
      | true => simp
    by_cases hd : keyIsDuplicate acc k
    · constructor
      · intro hnone
        rw [hrange, if_pos hd] at hnone
        cases hnone
      · intro i p hsome hget
        rw [hrange, if_pos hd] at hsome
        cases hsome
        rw [List.get?_cons_zero] at hget
        cases hget
        rw [loadMappingGo, if_pos hd]
    · constructor
      · intro hnone
        rw [hrange, if_neg hd] at hnone
        have hinner :
            (List.range rest.length).find? (fun i => dupAt (acc ++ [(k, v)]) rest i) = none := by
          cases hx : (List.range rest.length).find? (fun i => dupAt (acc ++ [(k, v)]) rest i) with
          | none => rfl
          | some j => rw [hx] at hnone; cases hnone
        rw [loadMappingGo, if_neg (by simp [hd]), (ih (acc ++ [(k, v)])).1 hinner]
        simp
      · intro i p hsome hget
        rw [hrange, if_neg hd] at hsome
        cases hx : (List.range rest.length).find? (fun i => dupAt (acc ++ [(k, v)]) rest i) with
        | none => rw [hx] at hsome; cases hsome
        | some j =>
          rw [hx] at hsome
          simp at hsome
          cases hsome
          rw [List.get?_cons_succ] at hget
          rw [loadMappingGo, if_neg (by simp [hd])]
          exact (ih (acc ++ [(k, v)])).2 j p hx hget

/-- Claim C4 fails on the code as stated: the public append/prepend API has
no way to skip the duplicate-key check.  At this concrete input — appending
or prepending a second `k` key to a mapping that already holds one — both
entry points unconditionally run the semantic duplicate check in
`fy_node_mapping_pair_insert_prepare` and fail. -/
theorem c4_counterexample :
    fy_node_mapping_append
      (.mapping .block [(some (.scalar .plain (bs "k")), some (.scalar .plain (bs "1")))])
      (some (.scalar .plain (bs "k"))) (some (.scalar .plain (bs "2"))) = none ∧
    fy_node_mapping_prepend
      (.mapping .block [(some (.scalar .plain (bs "k")), some (.scalar .plain (bs "1")))])
      (some (.scalar .plain (bs "k"))) (some (.scalar .plain (bs "2"))) = none :=
  ⟨rfl, rfl⟩

/-- Claim C4, amended: within every mapping of a built document no two keys
compare equal under semantic equality — building a mapping from events
succeeds and preserves the pairs in order exactly when no key duplicates an
earlier key of the same mapping, and fails with the first offending key (the
diagnostic points at that key's marks) otherwise; the public append/prepend
API always enforces the same duplicate-key check and rejects duplicates
(a caller can bypass checks only through `fy_node_pair_set_key`, which is
documented to perform none). -/
theorem c4_amended_duplicate_keys :
    (∀ (st : Style) (items : List NodePair), firstDupIdx items = none →
      fy_parse_document_load_mapping st items = .ok (.mapping st items)) ∧
    (∀ (st : Style) (items : List NodePair) (i : Nat) (p : NodePair),
      firstDupIdx items = some i → items.get? i = some p →
      fy_parse_document_load_mapping st items = .error p.1) ∧
    (∀ (st : Style) (pairs : List NodePair) (key value : Option Node),
      keyIsDuplicate pairs key = true →
      fy_node_mapping_append (.mapping st pairs) key value = none ∧
      fy_node_mapping_prepend (.mapping st pairs) key value = none) := by
  refine ⟨?_, ?_, ?_⟩
  · intro st items hnone
    rw [fy_parse_document_load_mapping, (loadGo_idx items []).1 hnone]
    rfl
  · intro st items i p hsome hget
    rw [fy_parse_document_load_mapping, (loadGo_idx items []).2 i p hsome hget]
    rfl
  · intro st pairs key value hdup
    constructor
    · simp [fy_node_mapping_append, fy_node_mapping_pair_insert_prepare, hdup]
    · simp [fy_node_mapping_prepend, fy_node_mapping_pair_insert_prepare, hdup]

/-- Closed instance of `c4_amended_duplicate_keys`: the duplicate-free
mapping `{a: 1, b: 2}` builds as given; `{k: 1, k: 2}` fails at the second
`k`; appending a duplicate `a` to the built mapping is rejected. -/
theorem c4_witness :
    fy_parse_document_load_mapping .block
      [(some (.scalar .plain (bs "a")), some (.scalar .plain (bs "1"))),
       (some (.scalar .plain (bs "b")), some (.scalar .plain (bs "2")))] =
      .ok (.mapping .block
        [(some (.scalar .plain (bs "a")), some (.scalar .plain (bs "1"))),
         (some (.scalar .plain (bs "b")), some (.scalar .plain (bs "2")))]) ∧
    fy_parse_document_load_mapping .block
      [(some (.scalar .plain (bs "k")), some (.scalar .plain (bs "1"))),
       (some (.scalar .plain (bs "k")), some (.scalar .plain (bs "2")))] =
      .error (some (.scalar .plain (bs "k"))) ∧
    fy_node_mapping_append
      (.mapping .block
        [(some (.scalar .plain (bs "a")), some (.scalar .plain (bs "1"))),
         (some (.scalar .plain (bs "b")), some (.scalar .plain (bs "2")))])
      (some (.scalar .plain (bs "a"))) (some (.scalar .plain (bs "3"))) = none := by
  refine ⟨?_, ?_, ?_⟩
  · exact (c4_amended_duplicate_keys.1 _ _ (by rfl))
  · exact (c4_amended_duplicate_keys.2.1 _ _ 1
      ((some (.scalar .plain (bs "k"))), (some (.scalar .plain (bs "2")))) (by rfl) (by rfl))
  · exact (c4_amended_duplicate_keys.2.2 _ _ _ (some (.scalar .plain (bs "3"))) (by rfl)).1

/-- Claim C10: `fy_node_mapping_remove_by_key` removes the first pair whose
key compares semantically equal to the given key and returns that pair's
value; without a matching key it returns NULL and leaves the mapping
unchanged.  (The C code additionally clears the returned value's parent
pointer and frees the probe key when it is not the stored key — pointer
bookkeeping outside this model.) -/
theorem c10_remove_by_key (st : Style) (pairs : List NodePair) (key : Option Node) :
    fy_node_mapping_remove_by_key (.mapping st pairs) key = specRemoveByKey st pairs key := by
  rw [fy_node_mapping_remove_by_key, specRemoveByKey, specRemoveGo_eq_findIdx]
  cases List.findIdx? (fun q => fy_node_compare q.1 key) pairs <;> simp

/-! ### C8 -/

/-- Claim C8 fails on the code as stated: no recursion-depth bound exists in
the resolver, and on a malformed self-referential input — an anchored
mapping reachable from an alias to itself — `fy_document_resolve` does not
terminate with an error: it succeeds. -/
theorem c8_counterexample : (fy_document_resolve c8Env (some c8Root)).isOk = true := rfl

/-- Claim C8, amended: `fy_document_resolve` terminates on every document,
including one where the mutation API has made an anchored node reachable
from an alias to itself, but imposes no recursion-depth bound and reports no
error on such inputs: the alias is replaced by a single structural copy of
the anchor target as built, the copy is never re-visited, so resolution of
`m: &a {k: *a}` succeeds with the inner alias left in the copy. -/
theorem c8_amended_self_alias_resolution :
    fy_document_resolve c8Env (some c8Root) = .ok (some c8Expected) := rfl

/-! ### C1 and C6: the compare theory -/

theorem sizeN_lt_of_mem : ∀ (l : List Node) (x : Node), x ∈ l → sizeN x < sizeNL l := by
  intro l
  induction l with
  | nil => intro x hx; cases hx
  | cons y ys ih =>
    intro x hx
    rcases List.mem_cons.1 hx with hx | hx
    · rw [hx, sizeNL]; omega
    · have := ih x hx
      rw [sizeNL]
      omega

theorem sizeNP_lt_of_mem : ∀ (ps : List NodePair) (p : NodePair), p ∈ ps →
    sizeNO p.1 + sizeNO p.2 < sizeNP ps := by
  intro ps
  induction ps with
  | nil => intro p hp; cases hp
  | cons q qs ih =>
    intro p hp
    obtain ⟨qk, qv⟩ := q
    rcases List.mem_cons.1 hp with hp | hp
    · rw [hp, sizeNP]
      show sizeNO qk + sizeNO qv < 1 + sizeNO qk + sizeNO qv + sizeNP qs
      omega
    · have := ih p hp
      rw [sizeNP]
      omega

theorem mem_withIdx : ∀ (l : List NodePair) (n : Nat) (q : NodePair × Nat),
    q ∈ withIdx l n → q.1 ∈ l := by
  intro l
  induction l with
  | nil => intro n q hq; cases hq
  | cons p ps ih =>
    intro n q hq
    rcases List.mem_cons.1 hq with hq | hq
    · rw [hq]; exact List.mem_cons_self p ps
    · exact List.mem_cons_of_mem p (ih (n + 1) q hq)

theorem mem_perform_sort (l : List NodePair) (p : NodePair)
    (hp : p ∈ fy_node_mapping_perform_sort l) : p ∈ l := by
  rw [fy_node_mapping_perform_sort] at hp
  obtain ⟨q, hq, hqp⟩ := List.mem_map.1 hp
  have hq2 := (List.mem_insertionSort sortLE).1 hq
  rw [← hqp]
  exact mem_withIdx l 0 q hq2

theorem length_withIdx : ∀ (l : List NodePair) (n : Nat), (withIdx l n).length = l.length := by
  intro l
  induction l with
  | nil => intro n; rfl
  | cons p ps ih => intro n; rw [withIdx, List.length_cons, List.length_cons, ih]

theorem length_perform_sort (l : List NodePair) :
    (fy_node_mapping_perform_sort l).length = l.length := by
  rw [fy_node_mapping_perform_sort, List.length_map, List.length_insertionSort,
    length_withIdx]

theorem all_ext {α : Type} : ∀ (l : List α) (p q : α → Bool),
    (∀ x ∈ l, p x = q x) → l.all p = l.all q := by
  intro l
  induction l with
  | nil => intro p q _; rfl
  | cons x xs ih =>
    intro p q h
    rw [List.all_cons, List.all_cons, h x (List.mem_cons_self x xs),
      ih p q fun y hy => h y (List.mem_cons_of_mem x hy)]

theorem compareF_congr :
    ∀ (f g : Nat) (a b : Option Node), sizeNO a + sizeNO b < f → sizeNO a + sizeNO b < g →
      compareF f a b = compareF g a b := by
  intro f
  induction f with
  | zero => intro g a b hf _; omega
  | succ f ih =>
    intro g a b hf hg
    cases g with
    | zero => omega
    | succ g =>
      cases a with
      | none =>
        cases b with
        | none => rfl
        | some y => cases y <;> rfl
      | some x =>
        cases b with
        | none => cases x <;> rfl
        | some y =>
          cases x with
          | scalar s1 t1 => cases y <;> rfl
          | sequence s1 l1 =>
            cases y with
            | scalar s2 t2 => rfl
            | mapping s2 p2 => rfl
            | sequence s2 l2 =>
              have ha : sizeNO (some (Node.sequence s1 l1)) = 2 + sizeNL l1 := by
                rw [sizeNO, sizeN]; omega
              have hb : sizeNO (some (Node.sequence s2 l2)) = 2 + sizeNL l2 := by
                rw [sizeNO, sizeN]; omega
              show (l1.length == l2.length &&
                    (l1.zip l2).all fun q => compareF f (some q.1) (some q.2)) =
                  (l1.length == l2.length &&
                    (l1.zip l2).all fun q => compareF g (some q.1) (some q.2))
              congr 1
              apply all_ext
              intro q hq
              obtain ⟨hm1, hm2⟩ := List.of_mem_zip
                (show (q.1, q.2) ∈ l1.zip l2 from hq)
              have b1 := sizeN_lt_of_mem l1 q.1 hm1
              have b2 := sizeN_lt_of_mem l2 q.2 hm2
              have e1 : sizeNO (some q.1) = 1 + sizeN q.1 := by rw [sizeNO]
              have e2 : sizeNO (some q.2) = 1 + sizeN q.2 := by rw [sizeNO]
              exact ih g (some q.1) (some q.2) (by omega) (by omega)
          | mapping s1 p1 =>
            cases y with
            | scalar s2 t2 => rfl
            | sequence s2 l2 => rfl
            | mapping s2 p2 =>
              have ha : sizeNO (some (Node.mapping s1 p1)) = 2 + sizeNP p1 := by
                rw [sizeNO, sizeN]; omega
              have hb : sizeNO (some (Node.mapping s2 p2)) = 2 + sizeNP p2 := by
                rw [sizeNO, sizeN]; omega
              show (p1.length == p2.length &&
                    ((fy_node_mapping_perform_sort p1).zip
                      (fy_node_mapping_perform_sort p2)).all
                      fun q => compareF f q.1.1 q.2.1 && compareF f q.1.2 q.2.2) =
                  (p1.length == p2.length &&
                    ((fy_node_mapping_perform_sort p1).zip
                      (fy_node_mapping_perform_sort p2)).all
                      fun q => compareF g q.1.1 q.2.1 && compareF g q.1.2 q.2.2)
              congr 1
              apply all_ext
              intro q hq
              obtain ⟨hm1, hm2⟩ := List.of_mem_zip
                (show (q.1, q.2) ∈
                  (fy_node_mapping_perform_sort p1).zip (fy_node_mapping_perform_sort p2)
                  from hq)
              have c1 := sizeNP_lt_of_mem p1 q.1 (mem_perform_sort p1 q.1 hm1)
              have c2 := sizeNP_lt_of_mem p2 q.2 (mem_perform_sort p2 q.2 hm2)
              have e1 : compareF f q.1.1 q.2.1 = compareF g q.1.1 q.2.1 :=
                ih g q.1.1 q.2.1 (by omega) (by omega)
              have e2 : compareF f q.1.2 q.2.2 = compareF g q.1.2 q.2.2 :=
                ih g q.1.2 q.2.2 (by omega) (by omega)
              rw [e1, e2]

theorem beqComm {α : Type} [BEq α] [LawfulBEq α] (a b : α) : (a == b) = (b == a) := by
  cases h : a == b with
  | true => rw [eq_of_beq h, beq_self_eq_true]
  | false =>
    cases h2 : b == a with
    | false => rfl
    | true =>
      rw [eq_of_beq h2] at h
      rw [beq_self_eq_true] at h
      exact h.symm

theorem mem_zip_self {α : Type} : ∀ (l : List α) (q : α × α), q ∈ l.zip l → q.1 = q.2 := by
  intro l
  induction l with
  | nil => intro q h; exact absurd h (by simp)
  | cons x xs ih =>
    intro q h
    rw [List.zip_cons_cons] at h
    rcases List.mem_cons.1 h with h | h
    · rw [h]
    · exact ih q h

theorem zip_all_trans {α : Type} (G : α → α → Bool)
    (htrans : ∀ x y z, G x y = true → G y z = true → G x z = true) :
    ∀ (l1 l2 l3 : List α), l1.length = l2.length →
      (l1.zip l2).all (fun q => G q.1 q.2) = true →
      (l2.zip l3).all (fun q => G q.1 q.2) = true →
      (l1.zip l3).all (fun q => G q.1 q.2) = true := by
  intro l1
  induction l1 with
  | nil => intro l2 l3 _ _ _; rfl
  | cons x xs ih =>
    intro l2 l3 hlen h12 h23
    cases l2 with
    | nil => exact absurd hlen (by simp)
    | cons y ys =>
      cases l3 with
      | nil => rfl
      | cons z zs =>
        simp only [List.zip_cons_cons, List.all_cons, Bool.and_eq_true] at h12 h23 ⊢
        exact ⟨htrans x y z h12.1 h23.1,
          ih ys zs (by simpa using hlen) h12.2 h23.2⟩

theorem compareF_symm : ∀ (f : Nat) (a b : Option Node), compareF f a b = compareF f b a := by
  intro f
  induction f with
  | zero => intro a b; rfl
  | succ f ih =>
    intro a b
    cases a with
    | none =>
      cases b with
      | none => rfl
      | some y =>
        cases y with
        | scalar s t => cases t <;> rfl
        | sequence s l => rfl
        | mapping s p => rfl
    | some x =>
      cases b with
      | none =>
        cases x with
        | scalar s t => cases t <;> rfl
        | sequence s l => rfl
        | mapping s p => rfl
      | some y =>
        cases x with
        | scalar s1 t1 =>
          cases y with
          | scalar s2 t2 =>
            cases t1 with
            | nil => cases t2 <;> rfl
            | cons u1 v1 =>
              cases t2 with
              | nil => rfl
              | cons u2 v2 =>
                show ((u1 :: v1 : Bytes) == u2 :: v2) = ((u2 :: v2 : Bytes) == u1 :: v1)
                exact beqComm _ _
          | sequence s2 l2 => cases t1 <;> rfl
          | mapping s2 p2 => cases t1 <;> rfl
        | sequence s1 l1 =>
          cases y with
          | scalar s2 t2 => cases t2 <;> rfl
          | mapping s2 p2 => rfl
          | sequence s2 l2 =>
            show (l1.length == l2.length &&
                  (l1.zip l2).all fun q => compareF f (some q.1) (some q.2)) =
                (l2.length == l1.length &&
                  (l2.zip l1).all fun q => compareF f (some q.1) (some q.2))
            rw [← List.zip_swap l2 l1, List.all_map, beqComm l1.length l2.length]
            congr 1
            apply all_ext
            intro q hq
            show compareF f (some q.2) (some q.1) = compareF f (some q.1) (some q.2)
            exact ih (some q.2) (some q.1)
        | mapping s1 p1 =>
          cases y with
          | scalar s2 t2 => cases t2 <;> rfl
          | sequence s2 l2 => rfl
          | mapping s2 p2 =>
            show (p1.length == p2.length &&
                  ((fy_node_mapping_perform_sort p1).zip (fy_node_mapping_perform_sort p2)).all
                    fun q => compareF f q.1.1 q.2.1 && compareF f q.1.2 q.2.2) =
                (p2.length == p1.length &&
                  ((fy_node_mapping_perform_sort p2).zip (fy_node_mapping_perform_sort p1)).all
                    fun q => compareF f q.1.1 q.2.1 && compareF f q.1.2 q.2.2)
            rw [← List.zip_swap (fy_node_mapping_perform_sort p2)
                (fy_node_mapping_perform_sort p1),
              List.all_map, beqComm p1.length p2.length]
            congr 1
            apply all_ext
            intro q hq
            show (compareF f q.2.1 q.1.1 && compareF f q.2.2 q.1.2) =
                (compareF f q.1.1 q.2.1 && compareF f q.1.2 q.2.2)
            rw [ih q.2.1 q.1.1, ih q.2.2 q.1.2]

theorem compareF_null_left : ∀ (f : Nat) (a b : Option Node), isNullNode a = true →
    compareF (f + 1) a b = isNullNode b := by
  intro f a b h
  cases a with
  | none =>
    cases b with
    | none => rfl
    | some y =>
      cases y with
      | scalar s t => cases t <;> rfl
      | sequence s l => rfl
      | mapping s p => rfl
  | some x =>
    cases x with
    | scalar s t =>
      cases t with
      | nil =>
        cases b with
        | none => rfl
        | some y =>
          cases y with
          | scalar s2 t2 => cases t2 <;> rfl
          | sequence s2 l2 => rfl
          | mapping s2 p2 => rfl
      | cons u v => exact absurd h (by simp [isNullNode])
    | sequence s l => exact absurd h (by simp [isNullNode])
    | mapping s p => exact absurd h (by simp [isNullNode])

theorem compareF_null_right : ∀ (f : Nat) (a b : Option Node), isNullNode b = true →
    compareF (f + 1) a b = isNullNode a := by
  intro f a b h
  rw [compareF_symm]
  exact compareF_null_left f b a h

theorem compareF_trans : ∀ (f : Nat) (a b c : Option Node),
    compareF f a b = true → compareF f b c = true → compareF f a c = true := by
  intro f
  induction f with
  | zero => intro a b c h1 _; exact nomatch h1
  | succ f ih =>
    intro a b c h1 h2
    by_cases hb : isNullNode b = true
    · have ha : isNullNode a = true := by
        rw [compareF_null_right f a b hb] at h1; exact h1
      have hc : isNullNode c = true := by
        rw [compareF_null_left f b c hb] at h2; exact h2
      rw [compareF_null_left f a c ha]
      exact hc
    · by_cases ha : isNullNode a = true
      · rw [compareF_null_left f a b ha] at h1
        exact absurd h1 hb
      by_cases hc : isNullNode c = true
      · rw [compareF_null_right f b c hc] at h2
        exact absurd h2 hb
      cases a with
      | none => exact absurd rfl ha
      | some x =>
        cases b with
        | none => exact absurd rfl hb
        | some y =>
          cases c with
          | none => exact absurd rfl hc
          | some z =>
            cases x with
            | scalar s1 t1 =>
              cases t1 with
              | nil => exact absurd rfl ha
              | cons u1 v1 =>
                cases y with
                | sequence s2 l2 => exact nomatch h1
                | mapping s2 p2 => exact nomatch h1
                | scalar s2 t2 =>
                  cases t2 with
                  | nil => exact absurd rfl hb
                  | cons u2 v2 =>
                    cases z with
                    | sequence s3 l3 => exact nomatch h2
                    | mapping s3 p3 => exact nomatch h2
                    | scalar s3 t3 =>
                      cases t3 with
                      | nil => exact absurd rfl hc
                      | cons u3 v3 =>
                        have e1 : ((u1 :: v1 : Bytes) == u2 :: v2) = true := h1
                        have e2 : ((u2 :: v2 : Bytes) == u3 :: v3) = true := h2
                        show ((u1 :: v1 : Bytes) == u3 :: v3) = true
                        rw [eq_of_beq e1]
                        exact e2
            | sequence s1 l1 =>
              cases y with
              | scalar s2 t2 =>
                cases t2 with
                | nil => exact absurd rfl hb
                | cons u2 v2 => exact nomatch h1
              | mapping s2 p2 => exact nomatch h1
              | sequence s2 l2 =>
                cases z with
                | scalar s3 t3 =>
                  cases t3 with
                  | nil => exact absurd rfl hc
                  | cons u3 v3 => exact nomatch h2
                | mapping s3 p3 => exact nomatch h2
                | sequence s3 l3 =>
                  have e1 : (l1.length == l2.length &&
                      (l1.zip l2).all fun q => compareF f (some q.1) (some q.2)) = true := h1
                  have e2 : (l2.length == l3.length &&
                      (l2.zip l3).all fun q => compareF f (some q.1) (some q.2)) = true := h2
                  rw [Bool.and_eq_true] at e1 e2
                  have hl12 : l1.length = l2.length := eq_of_beq e1.1
                  have hl23 : l2.length = l3.length := eq_of_beq e2.1
                  show (l1.length == l3.length &&
                      (l1.zip l3).all fun q => compareF f (some q.1) (some q.2)) = true
                  rw [Bool.and_eq_true]
                  constructor
                  · have h13 : l1.length = l3.length := hl12.trans hl23
                    simp [h13]
                  · exact zip_all_trans (fun n1 n2 => compareF f (some n1) (some n2))
                      (fun n1 n2 n3 hx hy => ih (some n1) (some n2) (some n3) hx hy)
                      l1 l2 l3 hl12 e1.2 e2.2
            | mapping s1 p1 =>
              cases y with
              | scalar s2 t2 =>
                cases t2 with
                | nil => exact absurd rfl hb
                | cons u2 v2 => exact nomatch h1
              | sequence s2 l2 => exact nomatch h1
              | mapping s2 p2 =>
                cases z with
                | scalar s3 t3 =>
                  cases t3 with
                  | nil => exact absurd rfl hc
                  | cons u3 v3 => exact nomatch h2
                | sequence s3 l3 => exact nomatch h2
                | mapping s3 p3 =>
                  have e1 : (p1.length == p2.length &&
                      ((fy_node_mapping_perform_sort p1).zip
                        (fy_node_mapping_perform_sort p2)).all
                        fun q => compareF f q.1.1 q.2.1 && compareF f q.1.2 q.2.2) = true := h1
                  have e2 : (p2.length == p3.length &&
                      ((fy_node_mapping_perform_sort p2).zip
                        (fy_node_mapping_perform_sort p3)).all
                        fun q => compareF f q.1.1 q.2.1 && compareF f q.1.2 q.2.2) = true := h2
                  rw [Bool.and_eq_true] at e1 e2
                  have hl12 : p1.length = p2.length := eq_of_beq e1.1
                  have hl23 : p2.length = p3.length := eq_of_beq e2.1
                  show (p1.length == p3.length &&
                      ((fy_node_mapping_perform_sort p1).zip
                        (fy_node_mapping_perform_sort p3)).all
                        fun q => compareF f q.1.1 q.2.1 && compareF f q.1.2 q.2.2) = true
                  rw [Bool.and_eq_true]
                  constructor
                  · have h13 : p1.length = p3.length := hl12.trans hl23
                    simp [h13]
                  · have hs12 : (fy_node_mapping_perform_sort p1).length
                        = (fy_node_mapping_perform_sort p2).length := by
                      rw [length_perform_sort, length_perform_sort, hl12]
                    exact zip_all_trans
                      (fun q1 q2 => compareF f q1.1 q2.1 && compareF f q1.2 q2.2)
                      (fun q1 q2 q3 hx hy => by
                        rw [Bool.and_eq_true] at hx hy ⊢
                        exact ⟨ih q1.1 q2.1 q3.1 hx.1 hy.1, ih q1.2 q2.2 q3.2 hx.2 hy.2⟩)
                      _ _ _ hs12 e1.2 e2.2

theorem compareF_refl : ∀ (f : Nat) (a : Option Node), sizeNO a + sizeNO a < f →
    compareF f a a = true := by
  intro f
  induction f with
  | zero => intro a h; omega
  | succ f ih =>
    intro a h
    cases a with
    | none => rfl
    | some x =>
      cases x with
      | scalar s t =>
        cases t with
        | nil => rfl
        | cons u v =>
          show ((u :: v : Bytes) == u :: v) = true
          exact beq_self_eq_true _
      | sequence s l =>
        have ha : sizeNO (some (Node.sequence s l)) = 2 + sizeNL l := by
          rw [sizeNO, sizeN]; omega
        show (l.length == l.length &&
            (l.zip l).all fun q => compareF f (some q.1) (some q.2)) = true
        rw [Bool.and_eq_true]
        refine ⟨beq_self_eq_true _, ?_⟩
        rw [List.all_eq_true]
        intro q hq
        have hqq : q.1 = q.2 := mem_zip_self l q hq
        have hm : q.1 ∈ l := (List.of_mem_zip (show (q.1, q.2) ∈ l.zip l from hq)).1
        have b1 := sizeN_lt_of_mem l q.1 hm
        have e1 : sizeNO (some q.1) = 1 + sizeN q.1 := by rw [sizeNO]
        show compareF f (some q.1) (some q.2) = true
        rw [← hqq]
        exact ih (some q.1) (by omega)
      | mapping s p =>
        have ha : sizeNO (some (Node.mapping s p)) = 2 + sizeNP p := by
          rw [sizeNO, sizeN]; omega
        show (p.length == p.length &&
            ((fy_node_mapping_perform_sort p).zip (fy_node_mapping_perform_sort p)).all
              fun q => compareF f q.1.1 q.2.1 && compareF f q.1.2 q.2.2) = true
        rw [Bool.and_eq_true]
        refine ⟨beq_self_eq_true _, ?_⟩
        rw [List.all_eq_true]
        intro q hq
        have hqq : q.1 = q.2 := mem_zip_self _ q hq
        have hm : q.1 ∈ fy_node_mapping_perform_sort p :=
          (List.of_mem_zip (show (q.1, q.2) ∈
            (fy_node_mapping_perform_sort p).zip (fy_node_mapping_perform_sort p) from hq)).1
        have c1 := sizeNP_lt_of_mem p q.1 (mem_perform_sort p q.1 hm)
        show (compareF f q.1.1 q.2.1 && compareF f q.1.2 q.2.2) = true
        rw [← hqq, Bool.and_eq_true]
        exact ⟨ih q.1.1 (by omega), ih q.1.2 (by omega)⟩

theorem compareF_eq_specEqF : ∀ (f : Nat) (a b : Option Node),
    compareF f a b = specEqF f a b := by
  intro f
  induction f with
  | zero => intro a b; rfl
  | succ f ih =>
    intro a b
    cases a with
    | none =>
      cases b with
      | none => rfl
      | some y =>
        cases y with
        | scalar s t => cases t <;> rfl
        | sequence s l => rfl
        | mapping s p => rfl
    | some x =>
      cases b with
      | none =>
        cases x with
        | scalar s t => cases t <;> rfl
        | sequence s l => rfl
        | mapping s p => rfl
      | some y =>
        cases x with
        | scalar s1 t1 =>
          cases y with
          | scalar s2 t2 => cases t1 <;> cases t2 <;> rfl
          | sequence s2 l2 => cases t1 <;> rfl
          | mapping s2 p2 => cases t1 <;> rfl
        | sequence s1 l1 =>
          cases y with
          | scalar s2 t2 => cases t2 <;> rfl
          | mapping s2 p2 => rfl
          | sequence s2 l2 =>
            show (l1.length == l2.length &&
                  (l1.zip l2).all fun q => compareF f (some q.1) (some q.2)) =
                (l1.length == l2.length &&
                  (l1.zip l2).all fun q => specEqF f (some q.1) (some q.2))
            congr 1
            apply all_ext
            intro q hq
            exact ih (some q.1) (some q.2)
        | mapping s1 p1 =>
          cases y with
          | scalar s2 t2 => cases t2 <;> rfl
          | sequence s2 l2 => rfl
          | mapping s2 p2 =>
            show (p1.length == p2.length &&
                  ((fy_node_mapping_perform_sort p1).zip (fy_node_mapping_perform_sort p2)).all
                    fun q => compareF f q.1.1 q.2.1 && compareF f q.1.2 q.2.2) =
                (p1.length == p2.length &&
                  ((fy_node_mapping_perform_sort p1).zip (fy_node_mapping_perform_sort p2)).all
                    fun q => specEqF f q.1.1 q.2.1 && specEqF f q.1.2 q.2.2)
            congr 1
            apply all_ext
            intro q hq
            rw [ih q.1.1 q.2.1, ih q.1.2 q.2.2]

/-- Claim C1: for every pair of nodes, `fy_node_compare` returns true iff the
two nodes are equal in the spec's sense, transcribed by `specNodeEq`: (a) both
are null or empty scalars, or (b) both have the same kind and scalars have
byte-equal decoded text, sequences have pairwise-equal elements in order, and
mappings have equal item counts and, after sorting both by the default key
comparator, pairwise-equal keys and values. -/
theorem c1_semantic_equality (n1 n2 : Option Node) :
    fy_node_compare n1 n2 = specNodeEq n1 n2 :=
  compareF_eq_specEqF (sizeNO n1 + sizeNO n2 + 1) n1 n2

/-- Claim C6: semantic node equality `fy_node_compare` is an equivalence:
reflexive, symmetric, and transitive (all nodes of this model are internal to
their document, so the claim's side condition of no external aliases holds). -/
theorem c6_equivalence :
    (∀ a, fy_node_compare a a = true) ∧
    (∀ a b, fy_node_compare a b = fy_node_compare b a) ∧
    (∀ a b c, fy_node_compare a b = true → fy_node_compare b c = true →
      fy_node_compare a c = true) := by
  refine ⟨?_, ?_, ?_⟩
  · intro a
    exact compareF_refl (sizeNO a + sizeNO a + 1) a (by omega)
  · intro a b
    rw [fy_node_compare, fy_node_compare, Nat.add_comm (sizeNO b) (sizeNO a)]
    exact compareF_symm (sizeNO a + sizeNO b + 1) a b
  · intro a b c h1 h2
    rw [fy_node_compare] at h1 h2 ⊢
    rw [compareF_congr (sizeNO a + sizeNO b + 1) (sizeNO a + sizeNO b + sizeNO c + 1) a b
      (by omega) (by omega)] at h1
    rw [compareF_congr (sizeNO b + sizeNO c + 1) (sizeNO a + sizeNO b + sizeNO c + 1) b c
      (by omega) (by omega)] at h2
    rw [compareF_congr (sizeNO a + sizeNO c + 1) (sizeNO a + sizeNO b + sizeNO c + 1) a c
      (by omega) (by omega)]
    exact compareF_trans (sizeNO a + sizeNO b + sizeNO c + 1) a b c h1 h2

/-- Witness for C6: transitivity applied to three concrete scalar nodes whose
texts coincide but whose styles differ, with both hypotheses discharged by
evaluation. -/
theorem c6_witness :
    fy_node_compare (some (Node.scalar Style.plain (bs "x")))
      (some (Node.scalar Style.doubleQuoted (bs "x"))) = true ∧
    fy_node_compare (some (Node.scalar Style.doubleQuoted (bs "x")))
      (some (Node.scalar Style.singleQuoted (bs "x"))) = true ∧
    fy_node_compare (some (Node.scalar Style.plain (bs "x")))
      (some (Node.scalar Style.singleQuoted (bs "x"))) = true :=
  ⟨rfl, rfl,
    c6_equivalence.2.2 (some (Node.scalar Style.plain (bs "x")))
      (some (Node.scalar Style.doubleQuoted (bs "x")))
      (some (Node.scalar Style.singleQuoted (bs "x"))) rfl rfl⟩

end Fy
